import Mathlib

/-!
Verification of the SEARCH/REPLACE diff engine in
`bioagent/OTcoder/diff_utils.py`.

Texts are modelled as `List Char` and character offsets as `Nat`.  The
Python line-splitting primitives (`str.splitlines`, `str.strip`,
`str.find`, `str.count`) are given executable models below.  Line breaks
are modelled as `"\n"`, `"\r"` and `"\r\n"` (the universal-newline forms
that can occur in the texts handled by this module); the exotic Unicode
line breaks recognised by Python's `splitlines` are outside the modelled
alphabet.  The fuzzy-match acceptance test
`match.size / len(search_lines) >= 0.6` is modelled as the exact
rational comparison `6 * len(search_lines) <= 10 * match.size`; for all
realistic line counts the IEEE-double computation in the source agrees
with this rational comparison.
-/

/-- Python `str.splitlines` line-break predicate (restricted to the
modelled alphabet). -/
def pyIsLineBreak (c : Char) : Bool := c == '\n' || c == '\r'

/-- Split off the first line of a text, keeping its line terminator:
returns the first line (with terminator, if present) and the rest. -/
def breakLine : List Char → (List Char × List Char)
  | [] => ([], [])
  | c :: rest =>
    if c = '\n' then ([c], rest)
    else if c = '\r' then
      if rest.head? = some '\n' then (c :: rest.take 1, rest.drop 1)
      else ([c], rest)
    else (c :: (breakLine rest).1, (breakLine rest).2)

theorem breakLine_spec (s : List Char) :
    (breakLine s).1 ++ (breakLine s).2 = s ∧ (s ≠ [] → (breakLine s).1 ≠ []) := by
  induction s with
  | nil => exact ⟨rfl, fun h => absurd rfl h⟩
  | cons c rest ih =>
    by_cases h1 : c = '\n'
    · simp [breakLine, h1]
    · by_cases h2 : c = '\r'
      · by_cases h3 : rest.head? = some '\n'
        · have htd : List.take 1 rest ++ rest.tail = rest := by
            rw [← List.drop_one, List.take_append_drop]
          exact ⟨by simp [breakLine, h1, h2, h3, htd], by simp [breakLine, h1, h2, h3]⟩
        · simp [breakLine, h1, h2, h3]
      · refine ⟨?_, by simp [breakLine, h1, h2]⟩
        simp only [breakLine, h1, h2, if_false, ite_false]
        simp [ih.1]

theorem breakLine_append (s : List Char) : (breakLine s).1 ++ (breakLine s).2 = s :=
  (breakLine_spec s).1

theorem breakLine_snd_lt (s : List Char) (hs : s ≠ []) :
    (breakLine s).2.length < s.length := by
  have h := breakLine_append s
  have h1 : (breakLine s).1 ≠ [] := (breakLine_spec s).2 hs
  have hlen : (breakLine s).1.length + (breakLine s).2.length = s.length := by
    conv_rhs => rw [← h]
    rw [List.length_append]
  have hpos : 0 < (breakLine s).1.length := List.length_pos.mpr h1
  omega

/-- Structural worker for `splitlinesKeep`: the fuel argument (bounded
by the text length) makes the recursion kernel-reducible. -/
def splitKFuel : Nat → List Char → List (List Char)
  | _, [] => []
  | 0, _ :: _ => []
  | fuel + 1, c :: t => (breakLine (c :: t)).1 :: splitKFuel fuel (breakLine (c :: t)).2

/-- Python `str.splitlines(keepends=True)`. -/
def splitlinesKeep (s : List Char) : List (List Char) := splitKFuel s.length s

theorem splitKFuel_congr :
    ∀ (f1 : Nat) (s : List Char) (f2 : Nat), s.length ≤ f1 → s.length ≤ f2 →
    splitKFuel f1 s = splitKFuel f2 s := by
  intro f1
  induction f1 with
  | zero =>
    intro s f2 h1 _
    have hs : s = [] := by
      cases s with
      | nil => rfl
      | cons c t => simp at h1
    subst hs
    cases f2 <;> rfl
  | succ f ih =>
    intro s f2 h1 h2
    cases s with
    | nil => cases f2 <;> rfl
    | cons c t =>
      cases f2 with
      | zero => simp at h2
      | succ g =>
        show (breakLine (c :: t)).1 :: splitKFuel f (breakLine (c :: t)).2 =
          (breakLine (c :: t)).1 :: splitKFuel g (breakLine (c :: t)).2
        have hlt := breakLine_snd_lt (c :: t) (List.cons_ne_nil c t)
        simp only [List.length_cons] at hlt h1 h2
        rw [ih (breakLine (c :: t)).2 g (by omega) (by omega)]

/-- The defining recurrence of `splitlinesKeep`. -/
theorem splitlinesKeep_eq (s : List Char) :
    splitlinesKeep s =
      if s = [] then [] else (breakLine s).1 :: splitlinesKeep (breakLine s).2 := by
  cases s with
  | nil => rfl
  | cons c t =>
    rw [if_neg (List.cons_ne_nil c t)]
    show splitKFuel (t.length + 1) (c :: t) = _
    have hlt := breakLine_snd_lt (c :: t) (List.cons_ne_nil c t)
    simp only [List.length_cons] at hlt
    unfold splitlinesKeep
    show (breakLine (c :: t)).1 :: splitKFuel t.length (breakLine (c :: t)).2 = _
    rw [splitKFuel_congr t.length (breakLine (c :: t)).2 (breakLine (c :: t)).2.length
      (by omega) (Nat.le_refl _)]

/-- Strip the line terminator off a line produced by `breakLine`. -/
def dropLineBreak (l : List Char) : List Char := l.takeWhile (fun c => !(pyIsLineBreak c))

/-- Python `str.splitlines()` (keepends=False). -/
def splitlines (s : List Char) : List (List Char) := (splitlinesKeep s).map dropLineBreak

/-- Python whitespace predicate used by `str.strip()` (restricted to the
modelled alphabet). -/
def pyIsSpace (c : Char) : Bool :=
  c == ' ' || c == '\t' || c == '\n' || c == '\r' || c == Char.ofNat 11 || c == Char.ofNat 12

/-- Python `str.strip()`. -/
def pyStrip (l : List Char) : List Char :=
  ((l.dropWhile pyIsSpace).reverse.dropWhile pyIsSpace).reverse

/-- Python `haystack.find(needle)`: index of the first occurrence of
`needle` as a contiguous substring, or `none` (Python returns `-1`). -/
def pyFind : List Char → List Char → Option Nat
  | [], needle => if needle.isPrefixOf ([] : List Char) then some 0 else none
  | c :: t, needle =>
    if needle.isPrefixOf (c :: t) then some 0
    else (pyFind t needle).map (· + 1)

/-- `occursAt T S i` says the string `S` occurs in `T` starting at
character offset `i`. -/
def occursAt (T S : List Char) (i : Nat) : Bool := S.isPrefixOf (T.drop i)

/-- Python `text.count("\n", 0, k)`. -/
def countNL (s : List Char) (k : Nat) : Nat :=
  ((s.take k).filter (fun c => c == '\n')).length

/-- Python `"\n".join(lines)`. -/
def joinNL (lines : List (List Char)) : List Char := List.intercalate ['\n'] lines

/-- Result of `difflib.SequenceMatcher.find_longest_match`: a block
`a`, `b`, `size` with `xs[a : a+size] == ys[b : b+size]`. -/
structure LMatch where
  a : Nat
  b : Nat
  size : Nat
deriving Repr, DecidableEq

/-- Length of the longest common prefix of two line lists. -/
def commonRun : List (List Char) → List (List Char) → Nat
  | x :: xs, y :: ys => if x = y then commonRun xs ys + 1 else 0
  | _, _ => 0

/-- `difflib.SequenceMatcher(None, xs, ys, autojunk=False)
.find_longest_match(0, len(xs), 0, len(ys))`: the longest contiguous
matching block, ties broken by smallest position in `xs` and then in
`ys` (the documented contract of `find_longest_match` when there is no
junk). -/
def flmInner (xs ys : List (List Char)) (i : Nat) (best : LMatch) (j : Nat) : LMatch :=
  if best.size < commonRun (xs.drop i) (ys.drop j) then
    ⟨i, j, commonRun (xs.drop i) (ys.drop j)⟩
  else best

def flmOuter (xs ys : List (List Char)) (best : LMatch) (i : Nat) : LMatch :=
  (List.range ys.length).foldl (flmInner xs ys i) best

def find_longest_match (xs ys : List (List Char)) : LMatch :=
  (List.range xs.length).foldl (flmOuter xs ys) ⟨0, 0, 0⟩

/-- `fuzzy_match` from `diff_utils.py` (lines 34-79): anchor the window
on the longest common contiguous run of (terminator-keeping) lines,
accept only when the run covers at least 60% of the search lines, and
reject windows that fall outside the original. -/
def fuzzy_match (original_content search_content : List Char) : Option (Nat × Nat) :=
  let original_lines := splitlinesKeep original_content
  let search_lines := splitlinesKeep search_content
  if search_lines = [] then none
  else
    let m := find_longest_match original_lines search_lines
    if 0 < m.size ∧ 6 * search_lines.length ≤ 10 * m.size then
      let startL : Int := (m.a : Int) - (m.b : Int)
      let endL : Int := startL + search_lines.length
      if startL < 0 ∨ (original_lines.length : Int) < endL then none
      else
        let w : Nat := startL.toNat
        let matchStart := ((original_lines.take w).map List.length).sum
        let window := (original_lines.drop w).take search_lines.length
        some (matchStart, matchStart + (window.map List.length).sum)
    else none

/-- Structural worker for `findFirstIdx` (fuel counts the remaining
loop iterations, keeping the recursion kernel-reducible). -/
def ffiFuel (p : Nat → Bool) : Nat → Nat → Option Nat
  | 0, _ => none
  | fuel + 1, i => if p i then some i else ffiFuel p fuel (i + 1)

/-- First index `i` with `lo ≤ i < hi` satisfying `p`, mirroring
`for i in range(lo, hi)` with an early return. -/
def findFirstIdx (p : Nat → Bool) (lo hi : Nat) : Option Nat := ffiFuel p (hi - lo) lo

/-- The defining recurrence of `findFirstIdx`. -/
theorem findFirstIdx_eq (p : Nat → Bool) (lo hi : Nat) :
    findFirstIdx p lo hi =
      if lo < hi then
        (if p lo then some lo else findFirstIdx p (lo + 1) hi)
      else none := by
  unfold findFirstIdx
  by_cases h : lo < hi
  · rw [if_pos h]
    have h1 : hi - lo = (hi - (lo + 1)) + 1 := by omega
    rw [h1]
    rfl
  · rw [if_neg h]
    have h0 : hi - lo = 0 := by omega
    rw [h0]
    rfl

/-- Character offset of the start of line `i` when every line is
rebuilt with a one-character `"\n"` terminator (the arithmetic used by
the two line-based fallback matchers). -/
def lineCharStart (olines : List (List Char)) (i : Nat) : Nat :=
  ((olines.take i).map (fun l => l.length + 1)).sum

/-- The inner loop of `line_trimmed_fallback_match`: do the lines of the
window and the search block agree after `str.strip()`? -/
def trimRunMatch : List (List Char) → List (List Char) → Bool
  | _, [] => true
  | [], _ :: _ => false
  | o :: os, s :: ss => pyStrip o == pyStrip s && trimRunMatch os ss

/-- `line_trimmed_fallback_match` from `diff_utils.py` (lines 81-121). -/
def line_trimmed_fallback_match (original_content search_content : List Char)
    (start_index : Nat) : Option (Nat × Nat) :=
  let original_lines := splitlines original_content
  let search_lines := splitlines search_content
  if search_lines = [] then none
  else
    let start_line_num := countNL original_content start_index
    match findFirstIdx (fun i => trimRunMatch (original_lines.drop i) search_lines)
        start_line_num (original_lines.length + 1 - search_lines.length) with
    | none => none
    | some i =>
      let s := lineCharStart original_lines i
      let e := s + (((original_lines.drop i).take search_lines.length).map
        (fun l => l.length + 1)).sum - 1
      some (s, e)

/-- The anchor test of `block_anchor_fallback_match` at window start `i`:
trimmed first and last window lines equal the trimmed first and last
search lines. -/
def anchorMatchAt (original_lines : List (List Char)) (firstL lastL : List Char)
    (sbs i : Nat) : Bool :=
  pyStrip (original_lines.getD i []) == firstL &&
    pyStrip (original_lines.getD (i + sbs - 1) []) == lastL

/-- `block_anchor_fallback_match` from `diff_utils.py` (lines 123-159). -/
def block_anchor_fallback_match (original_content search_content : List Char)
    (start_index : Nat) : Option (Nat × Nat) :=
  let original_lines := splitlines original_content
  let search_lines := splitlines search_content
  if search_lines.length < 3 then none
  else
    let firstL := pyStrip (search_lines.headD [])
    let lastL := pyStrip (search_lines.getLastD [])
    let sbs := search_lines.length
    let start_line_num := countNL original_content start_index
    match findFirstIdx (anchorMatchAt original_lines firstL lastL sbs)
        start_line_num (original_lines.length + 1 - sbs) with
    | none => none
    | some i =>
      let s := lineCharStart original_lines i
      let e := s + (((original_lines.drop i).take sbs).map (fun l => l.length + 1)).sum - 1
      some (s, e)

/-- The four-tier resolution cascade of `apply_diff` (lines 215-250):
exact `find`, then fuzzy, then line-trimmed, then block-anchor. -/
def resolve_search (original_content search_content : List Char) : Option (Nat × Nat) :=
  match pyFind original_content search_content with
  | some exact_index => some (exact_index, exact_index + search_content.length)
  | none =>
    match fuzzy_match original_content search_content with
    | some r => some r
    | none =>
      match line_trimmed_fallback_match original_content search_content 0 with
      | some r => some r
      | none => block_anchor_fallback_match original_content search_content 0

/-- `is_search_block_start` (regex `^[-]{7,} SEARCH$`): at least seven
dashes followed by the literal `" SEARCH"`. -/
def is_search_block_start (line : List Char) : Bool :=
  let k := (line.takeWhile (fun c => c == '-')).length
  7 ≤ k && line.drop k == ' ' :: ['S', 'E', 'A', 'R', 'C', 'H']

/-- `is_search_block_end` (regex `^[=]{7,}$`): a line of at least seven
equals signs. -/
def is_search_block_end (line : List Char) : Bool :=
  7 ≤ line.length && line.all (fun c => c == '=')

/-- `is_replace_block_end` (regex `^[+]{7,} REPLACE$`): at least seven
plus signs followed by the literal `" REPLACE"`. -/
def is_replace_block_end (line : List Char) : Bool :=
  let k := (line.takeWhile (fun c => c == '+')).length
  7 ≤ k && line.drop k == ' ' :: ['R', 'E', 'P', 'L', 'A', 'C', 'E']

/-- A line matching any of the three block markers. -/
def isMarkerLine (l : List Char) : Bool :=
  is_search_block_start l || is_search_block_end l || is_replace_block_end l

/-- A resolved replacement: the entry appended to `replacements` in
`apply_diff` (`start`/`end` character span plus replacement text; the
source's `end` key is called `stop` here because `end` is reserved). -/
structure Replacement where
  start : Nat
  stop : Nat
  content : List Char
deriving Repr, DecidableEq

/-- The error cases raised (as `ValueError`) by `apply_diff`. -/
inductive DiffError where
  | unexpectedSearchStart
  | unexpectedSearchEnd
  | unexpectedReplaceEnd
  | unmatchedSearchBlock (searchContent : List Char)
  | unclosedBlock
  | overlappingEdits
deriving Repr, DecidableEq

/-- The mutable state of the line loop in `apply_diff`. -/
structure AState where
  inSearch : Bool
  inReplace : Bool
  curSearch : List (List Char)
  curReplace : List (List Char)
  repls : List Replacement
deriving Repr, DecidableEq

/-- One iteration of the line loop of `apply_diff` (lines 186-268). -/
def applyLine (original_content : List Char) (st : AState) (line : List Char) :
    Except DiffError AState :=
  if is_search_block_start line then
    if st.inSearch || st.inReplace then .error .unexpectedSearchStart
    else .ok { st with inSearch := true, curSearch := [], curReplace := [] }
  else if is_search_block_end line then
    if !st.inSearch then .error .unexpectedSearchEnd
    else .ok { st with inSearch := false, inReplace := true }
  else if is_replace_block_end line then
    if !st.inReplace then .error .unexpectedReplaceEnd
    else
      let search_content := joinNL st.curSearch
      match resolve_search original_content search_content with
      | none => .error (.unmatchedSearchBlock search_content)
      | some r =>
        .ok { inSearch := false, inReplace := false, curSearch := [], curReplace := [],
              repls := st.repls ++ [⟨r.1, r.2, joinNL st.curReplace⟩] }
  else if st.inSearch then .ok { st with curSearch := st.curSearch ++ [line] }
  else if st.inReplace then .ok { st with curReplace := st.curReplace ++ [line] }
  else .ok st

/-- `for line in lines: ...` in `apply_diff`, with errors propagating. -/
def runLinesA (original_content : List Char) (st : AState) :
    List (List Char) → Except DiffError AState
  | [] => .ok st
  | l :: ls =>
    match applyLine original_content st l with
    | .error e => .error e
    | .ok st2 => runLinesA original_content st2 ls

/-- Stable insertion used to model Python's stable
`replacements.sort(key=lambda r: r['start'])`. -/
def insertRepl (r : Replacement) : List Replacement → List Replacement
  | [] => [r]
  | x :: xs => if x.start < r.start then x :: insertRepl r xs else r :: x :: xs

/-- Stable sort of the replacements by `start`, modelling Python's
stable `list.sort(key=lambda r: r['start'])`. -/
def sortRepls : List Replacement → List Replacement
  | [] => []
  | r :: rs => insertRepl r (sortRepls rs)

/-- The overlap scan of `apply_diff` (lines 277-281): walk the sorted
replacements, failing when a start precedes the previous end
(`last_end` starts at `-1`). -/
def checkOverlap : Int → List Replacement → Bool
  | _, [] => true
  | lastEnd, r :: rs =>
    if (r.start : Int) < lastEnd then false else checkOverlap (r.stop : Int) rs

/-- Python slice `l[a:b]` for non-negative bounds. -/
def pySlice (l : List Char) (a b : Nat) : List Char := (l.take b).drop a

/-- The output assembly of `apply_diff` (lines 284-293). -/
def rebuild (original_content : List Char) : Nat → List Replacement → List Char
  | pos, [] => original_content.drop pos
  | pos, r :: rs => pySlice original_content pos r.start ++ r.content ++
      rebuild original_content r.stop rs

/-- `apply_diff` from `diff_utils.py` (lines 162-293). -/
def apply_diff (original_content diff_content : List Char) :
    Except DiffError (List Char) :=
  match runLinesA original_content ⟨false, false, [], [], []⟩ (splitlines diff_content) with
  | .error e => .error e
  | .ok st =>
    if st.inSearch || st.inReplace then .error .unclosedBlock
    else
      let sorted := sortRepls st.repls
      if checkOverlap (-1) sorted then .ok (rebuild original_content 0 sorted)
      else .error .overlappingEdits

/-- One SEARCH/REPLACE pair, as accumulated by the parsing skeleton of
`apply_diff`'s line loop. -/
structure EditBlock where
  searchLines : List (List Char)
  replaceLines : List (List Char)
deriving Repr, DecidableEq

/-- The parsing component of the line-loop state (no resolution). -/
structure PState where
  inSearch : Bool
  inReplace : Bool
  curSearch : List (List Char)
  curReplace : List (List Char)
  blocks : List EditBlock
deriving Repr, DecidableEq

/-- The parsing skeleton of one iteration of `apply_diff`'s line loop:
identical marker handling and content accumulation, but a closed block
is recorded instead of being resolved against the original text. -/
def parseLine (st : PState) (line : List Char) : Except DiffError PState :=
  if is_search_block_start line then
    if st.inSearch || st.inReplace then .error .unexpectedSearchStart
    else .ok { st with inSearch := true, curSearch := [], curReplace := [] }
  else if is_search_block_end line then
    if !st.inSearch then .error .unexpectedSearchEnd
    else .ok { st with inSearch := false, inReplace := true }
  else if is_replace_block_end line then
    if !st.inReplace then .error .unexpectedReplaceEnd
    else .ok { inSearch := false, inReplace := false, curSearch := [], curReplace := [],
               blocks := st.blocks ++ [⟨st.curSearch, st.curReplace⟩] }
  else if st.inSearch then .ok { st with curSearch := st.curSearch ++ [line] }
  else if st.inReplace then .ok { st with curReplace := st.curReplace ++ [line] }
  else .ok st

/-- Run the parsing skeleton over a list of lines. -/
def runLinesP (st : PState) : List (List Char) → Except DiffError PState
  | [] => .ok st
  | l :: ls =>
    match parseLine st l with
    | .error e => .error e
    | .ok st2 => runLinesP st2 ls

/-- The diff parser: the marker structure of `apply_diff`'s line loop,
returning the SEARCH/REPLACE blocks in document order. -/
def parse_diff (diff_content : List Char) : Except DiffError (List EditBlock) :=
  match runLinesP ⟨false, false, [], [], []⟩ (splitlines diff_content) with
  | .error e => .error e
  | .ok st =>
    if st.inSearch || st.inReplace then .error .unclosedBlock
    else .ok st.blocks

/-- Resolve each parsed block in document order, as `apply_diff` does at
each closing `REPLACE` marker: the first block that all four strategies
fail on aborts the whole application. -/
def resolveBlocks (original_content : List Char) :
    List EditBlock → Except DiffError (List Replacement)
  | [] => .ok []
  | b :: bs =>
    match resolve_search original_content (joinNL b.searchLines) with
    | none => .error (.unmatchedSearchBlock (joinNL b.searchLines))
    | some r =>
      match resolveBlocks original_content bs with
      | .error e => .error e
      | .ok rest => .ok (⟨r.1, r.2, joinNL b.replaceLines⟩ :: rest)

/-- The grammar of well-formed diff documents, line by line: junk lines
outside blocks are skipped, and each block is a start marker, verbatim
search lines, a `=======` separator, verbatim replace lines and a
`+++++++ REPLACE` terminator.  Lines inside a block may be blank or
arbitrary as long as they match none of the three markers. -/
inductive DiffGrammar : List (List Char) → List EditBlock → Prop
  | nil : DiffGrammar [] []
  | junk {l : List Char} {ls : List (List Char)} {bs : List EditBlock} :
      isMarkerLine l = false → DiffGrammar ls bs → DiffGrammar (l :: ls) bs
  | block {st : List Char} {s : List (List Char)} {sep : List Char}
      {r : List (List Char)} {em : List Char} {ls : List (List Char)}
      {bs : List EditBlock} :
      is_search_block_start st = true →
      (∀ x ∈ s, isMarkerLine x = false) →
      is_search_block_end sep = true →
      (∀ x ∈ r, isMarkerLine x = false) →
      is_replace_block_end em = true →
      DiffGrammar ls bs →
      DiffGrammar (st :: (s ++ sep :: (r ++ em :: ls))) (⟨s, r⟩ :: bs)

theorem splitlinesKeep_nil : splitlinesKeep [] = [] := rfl

theorem splitlinesKeep_eq_nil_iff (s : List Char) : splitlinesKeep s = [] ↔ s = [] := by
  constructor
  · intro h
    by_contra hs
    rw [splitlinesKeep_eq, if_neg hs] at h
    exact List.cons_ne_nil _ _ h
  · intro h; subst h; exact splitlinesKeep_nil

theorem join_splitlinesKeep (s : List Char) : (splitlinesKeep s).flatten = s := by
  by_cases hs : s = []
  · subst hs; simp [splitlinesKeep_nil]
  · rw [splitlinesKeep_eq, if_neg hs, List.flatten_cons,
      join_splitlinesKeep (breakLine s).2, breakLine_append]
termination_by s.length
decreasing_by exact breakLine_snd_lt s hs

theorem splitlines_eq_nil_iff (s : List Char) : splitlines s = [] ↔ s = [] := by
  rw [splitlines, List.map_eq_nil_iff, splitlinesKeep_eq_nil_iff]

/-- Which lines carry a terminator: every line split off by `breakLine`
either loses at least one terminator character under `dropLineBreak`, or
is the terminator-less final line of the text. -/
theorem breakLine_term_cases (s : List Char) (hs : s ≠ []) :
    (dropLineBreak (breakLine s).1).length + 1 ≤ (breakLine s).1.length ∨
      ((breakLine s).2 = [] ∧ dropLineBreak (breakLine s).1 = (breakLine s).1) := by
  induction s with
  | nil => exact absurd rfl hs
  | cons c rest ih =>
    by_cases h1 : c = '\n'
    · left; simp [breakLine, h1, dropLineBreak, pyIsLineBreak]
    · by_cases h2 : c = '\r'
      · by_cases h3 : rest.head? = some '\n'
        · left; simp [breakLine, h1, h2, h3, dropLineBreak, pyIsLineBreak]
        · left; simp [breakLine, h1, h2, h3, dropLineBreak, pyIsLineBreak]
      · have hbrk : pyIsLineBreak c = false := by
          simp [pyIsLineBreak, h1, h2]
        have hcons : dropLineBreak (c :: (breakLine rest).1) =
            c :: dropLineBreak (breakLine rest).1 := by
          simp [dropLineBreak, List.takeWhile_cons, hbrk]
        by_cases hr : rest = []
        · right
          subst hr
          constructor
          · simp [breakLine, h1, h2]
          · simp [breakLine, h1, h2, dropLineBreak, pyIsLineBreak, hbrk]
        · rcases ih hr with hL | ⟨hR1, hR2⟩
          · left
            simp only [breakLine, h1, h2, if_false, ite_false, hcons, List.length_cons]
            omega
          · right
            constructor
            · simp [breakLine, h1, h2, hR1]
            · simp only [breakLine, h1, h2, if_false, ite_false, hcons, hR2]

theorem sum_map_take_le {α : Type} (f : α → Nat) (L : List α) (m : Nat) :
    ((L.take m).map f).sum ≤ (L.map f).sum := by
  conv_rhs => rw [← List.take_append_drop m L]
  rw [List.map_append, List.sum_append]
  omega

/-- The `len(line) + 1` bookkeeping of the two line-based fallback
matchers never runs past the end of the text (the `+ 1` slack absorbs
the possibly missing final terminator). -/
theorem splitlines_sumLen1_le (s : List Char) :
    ((splitlines s).map (fun l => l.length + 1)).sum ≤ s.length + 1 := by
  by_cases hs : s = []
  · subst hs; simp [splitlines, splitlinesKeep_nil]
  · have happ := breakLine_append s
    have hlen : (breakLine s).1.length + (breakLine s).2.length = s.length := by
      conv_rhs => rw [← happ]
      rw [List.length_append]
    have hrec := splitlines_sumLen1_le (breakLine s).2
    rw [splitlines, splitlinesKeep_eq, if_neg hs]
    simp only [List.map_cons, List.sum_cons]
    rw [splitlines] at hrec
    rcases breakLine_term_cases s hs with hL | ⟨hR1, hR2⟩
    · omega
    · rw [hR1] at hrec ⊢
      simp only [splitlinesKeep_nil, List.map_nil, List.sum_nil] at hrec ⊢
      rw [hR2]
      omega
termination_by s.length
decreasing_by exact breakLine_snd_lt s hs

theorem pyFind_isPrefix {T S : List Char} {i : Nat} (h : pyFind T S = some i) :
    S.isPrefixOf (T.drop i) = true ∧ ∀ j < i, S.isPrefixOf (T.drop j) = false := by
  induction T generalizing i with
  | nil =>
    rw [pyFind] at h
    by_cases hp : S.isPrefixOf ([] : List Char)
    · rw [if_pos hp] at h
      cases h
      exact ⟨hp, fun j hj => absurd hj (Nat.not_lt_zero j)⟩
    · rw [if_neg hp] at h
      cases h
  | cons c t ih =>
    rw [pyFind] at h
    by_cases hp : S.isPrefixOf (c :: t)
    · rw [if_pos hp] at h
      cases h
      exact ⟨hp, fun j hj => absurd hj (Nat.not_lt_zero j)⟩
    · rw [if_neg hp] at h
      rcases Option.map_eq_some'.mp h with ⟨i', hi', hii⟩
      subst hii
      rcases ih hi' with ⟨h1, h2⟩
      refine ⟨h1, fun j hj => ?_⟩
      cases j with
      | zero => simpa using Bool.eq_false_iff.mpr hp
      | succ j' => exact h2 j' (Nat.lt_of_succ_lt_succ hj)

theorem pyFind_complete {T S : List Char} {i : Nat}
    (h : S.isPrefixOf (T.drop i) = true) : ∃ j, j ≤ i ∧ pyFind T S = some j := by
  induction T generalizing i with
  | nil =>
    refine ⟨0, Nat.zero_le i, ?_⟩
    rw [List.drop_nil] at h
    rw [pyFind, if_pos h]
  | cons c t ih =>
    by_cases hp : S.isPrefixOf (c :: t)
    · exact ⟨0, Nat.zero_le i, by rw [pyFind, if_pos hp]⟩
    · cases i with
      | zero => rw [List.drop_zero] at h; exact absurd h hp
      | succ i' =>
        rw [List.drop_succ_cons] at h
        rcases ih h with ⟨j', hj', hfind⟩
        exact ⟨j' + 1, Nat.succ_le_succ hj', by rw [pyFind, if_neg hp, hfind]; rfl⟩

theorem pyFind_bound {T S : List Char} {i : Nat} (h : pyFind T S = some i) :
    i + S.length ≤ T.length := by
  induction T generalizing i with
  | nil =>
    rw [pyFind] at h
    by_cases hp : S.isPrefixOf ([] : List Char)
    · rw [if_pos hp] at h
      cases h
      have := (List.isPrefixOf_iff_prefix.mp hp).length_le
      simpa using this
    · rw [if_neg hp] at h
      cases h
  | cons c t ih =>
    rw [pyFind] at h
    by_cases hp : S.isPrefixOf (c :: t)
    · rw [if_pos hp] at h
      cases h
      simpa using (List.isPrefixOf_iff_prefix.mp hp).length_le
    · rw [if_neg hp] at h
      rcases Option.map_eq_some'.mp h with ⟨i', hi', hii⟩
      subst hii
      have := ih hi'
      simp only [List.length_cons]
      omega

/-- `CommonRunAt xs ys i j k`: the `k` lines of `xs` starting at `i`
exist and equal the `k` lines of `ys` starting at `j` — a contiguous
run of lines common to the two sequences. -/
def CommonRunAt (xs ys : List (List Char)) (i j k : Nat) : Prop :=
  i + k ≤ xs.length ∧ j + k ≤ ys.length ∧ (xs.drop i).take k = (ys.drop j).take k

instance (xs ys : List (List Char)) (i j k : Nat) :
    Decidable (CommonRunAt xs ys i j k) := by
  unfold CommonRunAt; infer_instance

theorem commonRun_le_left : ∀ as bs : List (List Char), commonRun as bs ≤ as.length := by
  intro as
  induction as with
  | nil => intro bs; cases bs <;> simp [commonRun]
  | cons x xs ih =>
    intro bs
    cases bs with
    | nil => simp [commonRun]
    | cons y ys =>
      by_cases h : x = y
      · simp only [commonRun, h, if_true, ite_true, List.length_cons]
        exact Nat.succ_le_succ (ih ys)
      · simp [commonRun, h]

theorem commonRun_le_right : ∀ as bs : List (List Char), commonRun as bs ≤ bs.length := by
  intro as
  induction as with
  | nil => intro bs; cases bs <;> simp [commonRun]
  | cons x xs ih =>
    intro bs
    cases bs with
    | nil => simp [commonRun]
    | cons y ys =>
      by_cases h : x = y
      · simp only [commonRun, h, if_true, ite_true, List.length_cons]
        exact Nat.succ_le_succ (ih ys)
      · simp [commonRun, h]

theorem commonRun_take_eq : ∀ as bs : List (List Char),
    as.take (commonRun as bs) = bs.take (commonRun as bs) := by
  intro as
  induction as with
  | nil => intro bs; cases bs <;> simp [commonRun]
  | cons x xs ih =>
    intro bs
    cases bs with
    | nil => simp [commonRun]
    | cons y ys =>
      by_cases h : x = y
      · simp only [commonRun, h, if_true, ite_true, List.take_succ_cons]
        rw [ih ys]
      · simp [commonRun, h]

theorem commonRun_max : ∀ (as bs : List (List Char)) (k : Nat),
    as.take k = bs.take k → k ≤ as.length → k ≤ commonRun as bs := by
  intro as
  induction as with
  | nil =>
    intro bs k _ hk
    have hk0 : k = 0 := by simpa using hk
    subst hk0
    exact Nat.zero_le _
  | cons x xs ih =>
    intro bs k htake hk
    cases k with
    | zero => exact Nat.zero_le _
    | succ k' =>
      cases bs with
      | nil => simp at htake
      | cons y ys =>
        simp only [List.take_succ_cons, List.cons.injEq] at htake
        have hxy : x = y := htake.1
        simp only [commonRun, hxy, if_true, ite_true]
        have := ih ys k' htake.2 (by simpa using Nat.le_of_succ_le_succ hk)
        omega

theorem flmInner_size_le (xs ys : List (List Char)) (i : Nat) (best : LMatch) (j : Nat) :
    best.size ≤ (flmInner xs ys i best j).size := by
  unfold flmInner
  by_cases h : best.size < commonRun (xs.drop i) (ys.drop j)
  · rw [if_pos h]
    exact Nat.le_of_lt h
  · rw [if_neg h]

theorem foldl_flmInner_size_le (xs ys : List (List Char)) (i : Nat) (L : List Nat)
    (best : LMatch) : best.size ≤ (L.foldl (flmInner xs ys i) best).size := by
  induction L generalizing best with
  | nil => exact Nat.le_refl _
  | cons j L ih =>
    exact Nat.le_trans (flmInner_size_le xs ys i best j) (ih (flmInner xs ys i best j))

theorem flmOuter_size_le (xs ys : List (List Char)) (best : LMatch) (i : Nat) :
    best.size ≤ (flmOuter xs ys best i).size :=
  foldl_flmInner_size_le xs ys i _ best

theorem foldl_flmOuter_size_le (xs ys : List (List Char)) (L : List Nat) (best : LMatch) :
    best.size ≤ (L.foldl (flmOuter xs ys) best).size := by
  induction L generalizing best with
  | nil => exact Nat.le_refl _
  | cons i L ih =>
    exact Nat.le_trans (flmOuter_size_le xs ys best i) (ih (flmOuter xs ys best i))

theorem flmInner_realizes {xs ys : List (List Char)} {i j : Nat} {best : LMatch}
    (hi : i ≤ xs.length) (hj : j ≤ ys.length)
    (hb : CommonRunAt xs ys best.a best.b best.size) :
    CommonRunAt xs ys (flmInner xs ys i best j).a (flmInner xs ys i best j).b
      (flmInner xs ys i best j).size := by
  unfold flmInner
  by_cases h : best.size < commonRun (xs.drop i) (ys.drop j)
  · rw [if_pos h]
    unfold CommonRunAt
    refine ⟨?_, ?_, ?_⟩
    · show i + commonRun (xs.drop i) (ys.drop j) ≤ xs.length
      have h1 := commonRun_le_left (xs.drop i) (ys.drop j)
      rw [List.length_drop] at h1
      omega
    · show j + commonRun (xs.drop i) (ys.drop j) ≤ ys.length
      have h1 := commonRun_le_right (xs.drop i) (ys.drop j)
      rw [List.length_drop] at h1
      omega
    · exact commonRun_take_eq (xs.drop i) (ys.drop j)
  · rw [if_neg h]
    exact hb

theorem foldl_flmInner_realizes {xs ys : List (List Char)} {i : Nat} {L : List Nat}
    {best : LMatch} (hi : i ≤ xs.length) (hL : ∀ j ∈ L, j ≤ ys.length)
    (hb : CommonRunAt xs ys best.a best.b best.size) :
    CommonRunAt xs ys (L.foldl (flmInner xs ys i) best).a
      (L.foldl (flmInner xs ys i) best).b (L.foldl (flmInner xs ys i) best).size := by
  induction L generalizing best with
  | nil => exact hb
  | cons j L ih =>
    exact ih (fun j' hj' => hL j' (List.mem_cons_of_mem j hj'))
      (flmInner_realizes hi (hL j (List.mem_cons_self j L)) hb)

theorem flmOuter_realizes {xs ys : List (List Char)} {i : Nat} {best : LMatch}
    (hi : i ≤ xs.length) (hb : CommonRunAt xs ys best.a best.b best.size) :
    CommonRunAt xs ys (flmOuter xs ys best i).a (flmOuter xs ys best i).b
      (flmOuter xs ys best i).size :=
  foldl_flmInner_realizes hi (fun j hj => Nat.le_of_lt (List.mem_range.mp hj)) hb

theorem foldl_flmOuter_realizes {xs ys : List (List Char)} {L : List Nat} {best : LMatch}
    (hL : ∀ i ∈ L, i ≤ xs.length) (hb : CommonRunAt xs ys best.a best.b best.size) :
    CommonRunAt xs ys (L.foldl (flmOuter xs ys) best).a
      (L.foldl (flmOuter xs ys) best).b (L.foldl (flmOuter xs ys) best).size := by
  induction L generalizing best with
  | nil => exact hb
  | cons i L ih =>
    exact ih (fun i' hi' => hL i' (List.mem_cons_of_mem i hi'))
      (flmOuter_realizes (hL i (List.mem_cons_self i L)) hb)

theorem find_longest_match_realizes (xs ys : List (List Char)) :
    CommonRunAt xs ys (find_longest_match xs ys).a (find_longest_match xs ys).b
      (find_longest_match xs ys).size := by
  unfold find_longest_match
  exact foldl_flmOuter_realizes (fun i hi => Nat.le_of_lt (List.mem_range.mp hi))
    ⟨by simp, by simp, by simp⟩

theorem foldl_flmInner_covers {xs ys : List (List Char)} {i j : Nat} {L : List Nat}
    (best : LMatch) (hj : j ∈ L) :
    commonRun (xs.drop i) (ys.drop j) ≤ (L.foldl (flmInner xs ys i) best).size := by
  induction L generalizing best with
  | nil => cases hj
  | cons j0 L ih =>
    rcases List.mem_cons.mp hj with hj0 | hjL
    · subst hj0
      have hstep : commonRun (xs.drop i) (ys.drop j) ≤ (flmInner xs ys i best j).size := by
        unfold flmInner
        by_cases h : best.size < commonRun (xs.drop i) (ys.drop j)
        · rw [if_pos h]
        · rw [if_neg h]
          omega
      exact Nat.le_trans hstep (foldl_flmInner_size_le xs ys i L _)
    · exact ih _ hjL

theorem flmOuter_covers {xs ys : List (List Char)} {i j : Nat} (best : LMatch)
    (hj : j < ys.length) :
    commonRun (xs.drop i) (ys.drop j) ≤ (flmOuter xs ys best i).size :=
  foldl_flmInner_covers best (List.mem_range.mpr hj)

theorem foldl_flmOuter_covers {xs ys : List (List Char)} {i j : Nat} {L : List Nat}
    (best : LMatch) (hi : i ∈ L) (hj : j < ys.length) :
    commonRun (xs.drop i) (ys.drop j) ≤ (L.foldl (flmOuter xs ys) best).size := by
  induction L generalizing best with
  | nil => cases hi
  | cons i0 L ih =>
    rcases List.mem_cons.mp hi with hi0 | hiL
    · subst hi0
      exact Nat.le_trans (flmOuter_covers best hj) (foldl_flmOuter_size_le xs ys L _)
    · exact ih _ hiL

theorem find_longest_match_max {xs ys : List (List Char)} {i j k : Nat}
    (h : CommonRunAt xs ys i j k) : k ≤ (find_longest_match xs ys).size := by
  rcases h with ⟨hik, hjk, htake⟩
  cases k with
  | zero => exact Nat.zero_le _
  | succ k' =>
    have hi : i < xs.length := by omega
    have hj : j < ys.length := by omega
    have hcr : k' + 1 ≤ commonRun (xs.drop i) (ys.drop j) := by
      apply commonRun_max _ _ _ htake
      rw [List.length_drop]
      omega
    have hcov := @foldl_flmOuter_covers xs ys i j (List.range xs.length)
      ⟨0, 0, 0⟩ (List.mem_range.mpr hi) hj
    unfold find_longest_match
    omega

theorem fuzzy_match_gate {T S : List Char} {p : Nat × Nat}
    (h : fuzzy_match T S = some p) :
    0 < (find_longest_match (splitlinesKeep T) (splitlinesKeep S)).size ∧
      6 * (splitlinesKeep S).length ≤
        10 * (find_longest_match (splitlinesKeep T) (splitlinesKeep S)).size := by
  simp only [fuzzy_match] at h
  split at h
  · cases h
  · split at h
    · next hgate => exact hgate
    · cases h

theorem fuzzy_match_gate_fail {T S : List Char}
    (h : ¬(0 < (find_longest_match (splitlinesKeep T) (splitlinesKeep S)).size ∧
      6 * (splitlinesKeep S).length ≤
        10 * (find_longest_match (splitlinesKeep T) (splitlinesKeep S)).size)) :
    fuzzy_match T S = none := by
  simp only [fuzzy_match]
  split
  · rfl
  · rfl

theorem fuzzy_match_oob {T S : List Char}
    (hoob : ((find_longest_match (splitlinesKeep T) (splitlinesKeep S)).a : Int) -
        (find_longest_match (splitlinesKeep T) (splitlinesKeep S)).b < 0 ∨
      ((splitlinesKeep T).length : Int) <
        ((find_longest_match (splitlinesKeep T) (splitlinesKeep S)).a : Int) -
          (find_longest_match (splitlinesKeep T) (splitlinesKeep S)).b +
          (splitlinesKeep S).length) :
    fuzzy_match T S = none := by
  simp only [fuzzy_match]
  split
  · rfl
  · split
    · rfl
    · rfl

theorem fuzzy_match_some {T S : List Char} {s e : Nat}
    (h : fuzzy_match T S = some (s, e)) :
    (find_longest_match (splitlinesKeep T) (splitlinesKeep S)).b ≤
        (find_longest_match (splitlinesKeep T) (splitlinesKeep S)).a ∧
      (find_longest_match (splitlinesKeep T) (splitlinesKeep S)).a -
          (find_longest_match (splitlinesKeep T) (splitlinesKeep S)).b +
          (splitlinesKeep S).length ≤ (splitlinesKeep T).length ∧
      s = (((splitlinesKeep T).take
          ((find_longest_match (splitlinesKeep T) (splitlinesKeep S)).a -
            (find_longest_match (splitlinesKeep T) (splitlinesKeep S)).b)).map
          List.length).sum ∧
      e = s + ((((splitlinesKeep T).drop
          ((find_longest_match (splitlinesKeep T) (splitlinesKeep S)).a -
            (find_longest_match (splitlinesKeep T) (splitlinesKeep S)).b)).take
          (splitlinesKeep S).length).map List.length).sum ∧
      (((splitlinesKeep T).drop
          ((find_longest_match (splitlinesKeep T) (splitlinesKeep S)).a -
            (find_longest_match (splitlinesKeep T) (splitlinesKeep S)).b)).take
          (splitlinesKeep S).length).length = (splitlinesKeep S).length := by
  simp only [fuzzy_match] at h
  split at h
  · cases h
  · split at h
    · split at h
      · cases h
      · next hoob =>
        push_neg at hoob
        obtain ⟨h1, h2⟩ := hoob
        have hba : (find_longest_match (splitlinesKeep T) (splitlinesKeep S)).b ≤
            (find_longest_match (splitlinesKeep T) (splitlinesKeep S)).a := by omega
        have hw : (((find_longest_match (splitlinesKeep T) (splitlinesKeep S)).a : Int) -
            (find_longest_match (splitlinesKeep T) (splitlinesKeep S)).b).toNat =
            (find_longest_match (splitlinesKeep T) (splitlinesKeep S)).a -
              (find_longest_match (splitlinesKeep T) (splitlinesKeep S)).b := by omega
        rw [hw] at h
        have hbound : (find_longest_match (splitlinesKeep T) (splitlinesKeep S)).a -
            (find_longest_match (splitlinesKeep T) (splitlinesKeep S)).b +
            (splitlinesKeep S).length ≤ (splitlinesKeep T).length := by omega
        simp only [Option.some.injEq, Prod.mk.injEq] at h
        obtain ⟨hs, he⟩ := h
        refine ⟨hba, hbound, hs.symm, ?_, ?_⟩
        · rw [← hs, ← he]
        · rw [List.length_take, List.length_drop]
          omega
    · cases h

theorem fuzzy_match_isSome {T S : List Char} (hS : splitlinesKeep S ≠ [])
    (hgate : 0 < (find_longest_match (splitlinesKeep T) (splitlinesKeep S)).size ∧
      6 * (splitlinesKeep S).length ≤
        10 * (find_longest_match (splitlinesKeep T) (splitlinesKeep S)).size)
    (hba : (find_longest_match (splitlinesKeep T) (splitlinesKeep S)).b ≤
      (find_longest_match (splitlinesKeep T) (splitlinesKeep S)).a)
    (hin : (find_longest_match (splitlinesKeep T) (splitlinesKeep S)).a -
        (find_longest_match (splitlinesKeep T) (splitlinesKeep S)).b +
        (splitlinesKeep S).length ≤ (splitlinesKeep T).length) :
    (fuzzy_match T S).isSome = true := by
  simp only [fuzzy_match]
  rw [if_neg hS, if_pos hgate, if_neg ?_]
  · simp
  · push_neg
    constructor
    · omega
    · omega

theorem resolve_search_fallthrough {T S : List Char}
    (h1 : pyFind T S = none) (h2 : fuzzy_match T S = none) :
    resolve_search T S =
      match line_trimmed_fallback_match T S 0 with
      | some r => some r
      | none => block_anchor_fallback_match T S 0 := by
  simp only [resolve_search, h1, h2]

theorem findFirstIdx_some {p : Nat → Bool} {lo hi i : Nat}
    (h : findFirstIdx p lo hi = some i) :
    lo ≤ i ∧ i < hi ∧ p i = true ∧ ∀ j, lo ≤ j → j < i → p j = false := by
  rw [findFirstIdx_eq] at h
  by_cases hlt : lo < hi
  · rw [if_pos hlt] at h
    by_cases hp : p lo
    · rw [if_pos hp] at h
      cases h
      exact ⟨Nat.le_refl lo, hlt, hp,
        fun j hj1 hj2 => absurd (Nat.lt_of_le_of_lt hj1 hj2) (Nat.lt_irrefl lo)⟩
    · rw [if_neg hp] at h
      obtain ⟨h1, h2, h3, h4⟩ := findFirstIdx_some h
      refine ⟨by omega, h2, h3, ?_⟩
      intro j hj1 hj2
      by_cases hjlo : j = lo
      · subst hjlo
        exact Bool.eq_false_iff.mpr hp
      · exact h4 j (by omega) hj2
  · rw [if_neg hlt] at h
    cases h
termination_by hi - lo

theorem findFirstIdx_none {p : Nat → Bool} {lo hi : Nat}
    (h : findFirstIdx p lo hi = none) (j : Nat) (hj1 : lo ≤ j) (hj2 : j < hi) :
    p j = false := by
  rw [findFirstIdx_eq] at h
  by_cases hlt : lo < hi
  · rw [if_pos hlt] at h
    by_cases hp : p lo
    · rw [if_pos hp] at h
      cases h
    · rw [if_neg hp] at h
      by_cases hjlo : j = lo
      · subst hjlo
        exact Bool.eq_false_iff.mpr hp
      · exact findFirstIdx_none h j (by omega) hj2
  · omega
termination_by hi - lo

theorem findFirstIdx_isSome {p : Nat → Bool} {lo hi j : Nat}
    (hj1 : lo ≤ j) (hj2 : j < hi) (hp : p j = true) :
    (findFirstIdx p lo hi).isSome = true := by
  cases hfi : findFirstIdx p lo hi with
  | none =>
    have := findFirstIdx_none hfi j hj1 hj2
    rw [hp] at this
    cases this
  | some i => rfl

theorem sumLen1_ge_length (L : List (List Char)) :
    L.length ≤ (L.map (fun l => l.length + 1)).sum := by
  induction L with
  | nil => simp
  | cons x xs ih =>
    simp only [List.length_cons, List.map_cons, List.sum_cons]
    omega

/-- The window arithmetic shared by the two line-based fallback
matchers: a window of `n ≥ 1` lines starting at line `i` yields a
well-formed span inside the text. -/
theorem lineWindow_bounds {T : List Char} {i n : Nat} (hn : 1 ≤ n)
    (hin : i + n ≤ (splitlines T).length) :
    lineCharStart (splitlines T) i ≤
        lineCharStart (splitlines T) i +
          ((((splitlines T).drop i).take n).map (fun l => l.length + 1)).sum - 1 ∧
      lineCharStart (splitlines T) i +
          ((((splitlines T).drop i).take n).map (fun l => l.length + 1)).sum - 1 ≤
        T.length := by
  have hwlen : (((splitlines T).drop i).take n).length = n := by
    rw [List.length_take, List.length_drop]
    omega
  have hw1 : 1 ≤ ((((splitlines T).drop i).take n).map (fun l => l.length + 1)).sum := by
    have := sumLen1_ge_length (((splitlines T).drop i).take n)
    omega
  have hsplit : lineCharStart (splitlines T) i +
      ((((splitlines T).drop i).take n).map (fun l => l.length + 1)).sum =
      (((splitlines T).take (i + n)).map (fun l => l.length + 1)).sum := by
    rw [lineCharStart, List.take_add, List.map_append, List.sum_append]
  have h1 := sum_map_take_le (fun l => List.length l + 1) (splitlines T) (i + n)
  have h2 := splitlines_sumLen1_le T
  constructor
  · omega
  · omega

theorem line_trimmed_some_bounds {T S : List Char} {si s e : Nat}
    (h : line_trimmed_fallback_match T S si = some (s, e)) :
    s ≤ e ∧ e ≤ T.length := by
  simp only [line_trimmed_fallback_match] at h
  split at h
  · cases h
  · next hS =>
    split at h
    · cases h
    · next i hfi =>
      simp only [Option.some.injEq, Prod.mk.injEq] at h
      obtain ⟨hs, he⟩ := h
      obtain ⟨h1, h2, h3, h4⟩ := findFirstIdx_some hfi
      have hn : 1 ≤ (splitlines S).length := by
        have := List.length_pos.mpr hS
        omega
      have hin : i + (splitlines S).length ≤ (splitlines T).length := by omega
      have := lineWindow_bounds hn hin
      subst hs he
      exact this

theorem block_anchor_some_bounds {T S : List Char} {si s e : Nat}
    (h : block_anchor_fallback_match T S si = some (s, e)) :
    s ≤ e ∧ e ≤ T.length := by
  simp only [block_anchor_fallback_match] at h
  split at h
  · cases h
  · next hS =>
    split at h
    · cases h
    · next i hfi =>
      simp only [Option.some.injEq, Prod.mk.injEq] at h
      obtain ⟨hs, he⟩ := h
      obtain ⟨h1, h2, h3, h4⟩ := findFirstIdx_some hfi
      have hn : 1 ≤ (splitlines S).length := by omega
      have hin : i + (splitlines S).length ≤ (splitlines T).length := by omega
      have := lineWindow_bounds hn hin
      subst hs he
      exact this

theorem fuzzy_some_bounds {T S : List Char} {s e : Nat}
    (h : fuzzy_match T S = some (s, e)) : s ≤ e ∧ e ≤ T.length := by
  obtain ⟨hba, hbound, hs, he, hwlen⟩ := fuzzy_match_some h
  constructor
  · omega
  · have hsplit : (((splitlinesKeep T).take
        ((find_longest_match (splitlinesKeep T) (splitlinesKeep S)).a -
          (find_longest_match (splitlinesKeep T) (splitlinesKeep S)).b +
          (splitlinesKeep S).length)).map List.length).sum =
        (((splitlinesKeep T).take
          ((find_longest_match (splitlinesKeep T) (splitlinesKeep S)).a -
            (find_longest_match (splitlinesKeep T) (splitlinesKeep S)).b)).map
          List.length).sum +
        ((((splitlinesKeep T).drop
          ((find_longest_match (splitlinesKeep T) (splitlinesKeep S)).a -
            (find_longest_match (splitlinesKeep T) (splitlinesKeep S)).b)).take
          (splitlinesKeep S).length).map List.length).sum := by
      rw [List.take_add, List.map_append, List.sum_append]
    have h1 := sum_map_take_le List.length (splitlinesKeep T)
      ((find_longest_match (splitlinesKeep T) (splitlinesKeep S)).a -
        (find_longest_match (splitlinesKeep T) (splitlinesKeep S)).b +
        (splitlinesKeep S).length)
    have h2 : ((splitlinesKeep T).map List.length).sum = T.length := by
      rw [← List.length_flatten, join_splitlinesKeep]
    omega

theorem pyFind_span_bounds {T S : List Char} {i : Nat} (h : pyFind T S = some i) :
    i ≤ i + S.length ∧ i + S.length ≤ T.length :=
  ⟨Nat.le_add_right i S.length, pyFind_bound h⟩

theorem resolve_search_bounds {T S : List Char} {s e : Nat}
    (h : resolve_search T S = some (s, e)) : s ≤ e ∧ e ≤ T.length := by
  unfold resolve_search at h
  cases hfind : pyFind T S with
  | some i =>
    simp only [hfind, Option.some.injEq, Prod.mk.injEq] at h
    obtain ⟨hs, he⟩ := h
    subst hs
    subst he
    exact pyFind_span_bounds hfind
  | none =>
    simp only [hfind] at h
    cases hfz : fuzzy_match T S with
    | some r =>
      simp only [hfz, Option.some.injEq] at h
      subst h
      exact fuzzy_some_bounds hfz
    | none =>
      simp only [hfz] at h
      cases hlt : line_trimmed_fallback_match T S 0 with
      | some r =>
        simp only [hlt, Option.some.injEq] at h
        subst h
        exact line_trimmed_some_bounds hlt
      | none =>
        simp only [hlt] at h
        exact block_anchor_some_bounds h

/-- Shift a parse state by prepending already-accumulated blocks. -/
def pshift (bacc : List EditBlock) (st : PState) : PState :=
  ⟨st.inSearch, st.inReplace, st.curSearch, st.curReplace, bacc ++ st.blocks⟩

/-- Shift an apply state by prepending already-accumulated replacements. -/
def ashift (racc : List Replacement) (st : AState) : AState :=
  ⟨st.inSearch, st.inReplace, st.curSearch, st.curReplace, racc ++ st.repls⟩

theorem parseLine_blocks_shift (m1 m2 : Bool) (cs rs : List (List Char))
    (bacc bs : List EditBlock) (l : List Char) :
    parseLine ⟨m1, m2, cs, rs, bacc ++ bs⟩ l =
      (parseLine ⟨m1, m2, cs, rs, bs⟩ l).map (pshift bacc) := by
  by_cases h1 : is_search_block_start l <;>
    by_cases h2 : is_search_block_end l <;>
      by_cases h3 : is_replace_block_end l <;>
        cases m1 <;> cases m2 <;>
          simp [parseLine, pshift, h1, h2, h3, Except.map, List.append_assoc]

theorem applyLine_repls_shift (T : List Char) (m1 m2 : Bool) (cs rs : List (List Char))
    (racc rl : List Replacement) (l : List Char) :
    applyLine T ⟨m1, m2, cs, rs, racc ++ rl⟩ l =
      (applyLine T ⟨m1, m2, cs, rs, rl⟩ l).map (ashift racc) := by
  by_cases h1 : is_search_block_start l <;>
    by_cases h2 : is_search_block_end l <;>
      by_cases h3 : is_replace_block_end l <;>
        cases m1 <;> cases m2 <;>
          cases hres : resolve_search T (joinNL cs) <;>
            simp [applyLine, ashift, h1, h2, h3, hres, Except.map, List.append_assoc]

theorem runLinesP_blocks_shift :
    ∀ (ls : List (List Char)) (m1 m2 : Bool) (cs rs : List (List Char))
      (bacc bs : List EditBlock),
    runLinesP ⟨m1, m2, cs, rs, bacc ++ bs⟩ ls =
      (runLinesP ⟨m1, m2, cs, rs, bs⟩ ls).map (pshift bacc) := by
  intro ls
  induction ls with
  | nil => intro m1 m2 cs rs bacc bs; simp [runLinesP, Except.map, pshift]
  | cons l ls ih =>
    intro m1 m2 cs rs bacc bs
    rw [runLinesP, runLinesP, parseLine_blocks_shift]
    cases hpl : parseLine ⟨m1, m2, cs, rs, bs⟩ l with
    | error e => simp [Except.map]
    | ok st2 =>
      rcases st2 with ⟨m1', m2', cs', rs', bs2⟩
      simp only [Except.map]
      exact ih m1' m2' cs' rs' bacc bs2

theorem runLinesA_repls_shift (T : List Char) :
    ∀ (ls : List (List Char)) (m1 m2 : Bool) (cs rs : List (List Char))
      (racc rl : List Replacement),
    runLinesA T ⟨m1, m2, cs, rs, racc ++ rl⟩ ls =
      (runLinesA T ⟨m1, m2, cs, rs, rl⟩ ls).map (ashift racc) := by
  intro ls
  induction ls with
  | nil => intro m1 m2 cs rs racc rl; simp [runLinesA, Except.map, ashift]
  | cons l ls ih =>
    intro m1 m2 cs rs racc rl
    rw [runLinesA, runLinesA, applyLine_repls_shift]
    cases hpl : applyLine T ⟨m1, m2, cs, rs, rl⟩ l with
    | error e => simp [Except.map]
    | ok st2 =>
      rcases st2 with ⟨m1', m2', cs', rs', rl2⟩
      simp only [Except.map]
      exact ih m1' m2' cs' rs' racc rl2

theorem runA_of_runP (T : List Char) :
    ∀ (ls : List (List Char)) (m1 m2 : Bool) (cs rs : List (List Char)) (stP : PState),
    runLinesP ⟨m1, m2, cs, rs, []⟩ ls = .ok stP →
    runLinesA T ⟨m1, m2, cs, rs, []⟩ ls =
      match resolveBlocks T stP.blocks with
      | .error e => .error e
      | .ok nrs =>
        .ok ⟨stP.inSearch, stP.inReplace, stP.curSearch, stP.curReplace, nrs⟩ := by
  intro ls
  induction ls with
  | nil =>
    intro m1 m2 cs rs stP hP
    rw [runLinesP] at hP
    simp only [Except.ok.injEq] at hP
    subst hP
    simp [runLinesA, resolveBlocks]
  | cons l ls ih =>
    intro m1 m2 cs rs stP hP
    rw [runLinesP] at hP
    rw [runLinesA]
    by_cases h1 : is_search_block_start l = true
    · cases m1 with
      | true => simp [parseLine, h1] at hP
      | false =>
        cases m2 with
        | true => simp [parseLine, h1] at hP
        | false =>
          simp only [parseLine, h1, if_true, Bool.or_self, Bool.false_or, if_false,
            ite_true, ite_false, Bool.or_false] at hP
          simp only [applyLine, h1, if_true, Bool.or_self, Bool.false_or, if_false,
            ite_true, ite_false, Bool.or_false]
          exact ih true false [] [] stP hP
    · by_cases h2 : is_search_block_end l = true
      · cases m1 with
        | false => simp [parseLine, h1, h2] at hP
        | true =>
          simp only [parseLine, h1, h2, Bool.not_true, Bool.not_false, if_true, if_false,
            ite_true, ite_false, Bool.false_eq_true] at hP
          simp only [applyLine, h1, h2, Bool.not_true, Bool.not_false, if_true, if_false,
            ite_true, ite_false, Bool.false_eq_true]
          exact ih false true cs rs stP hP
      · by_cases h3 : is_replace_block_end l = true
        · cases m2 with
          | false => simp [parseLine, h1, h2, h3] at hP
          | true =>
            simp only [parseLine, h1, h2, h3, Bool.not_true, Bool.not_false, if_true,
              if_false, ite_true, ite_false, Bool.false_eq_true, List.nil_append] at hP
            simp only [applyLine, h1, h2, h3, Bool.not_true, Bool.not_false, if_true,
              if_false, ite_true, ite_false, Bool.false_eq_true, List.nil_append]
            have hshift := runLinesP_blocks_shift ls false false [] [] [⟨cs, rs⟩] []
            simp only [List.append_nil] at hshift
            rw [hshift] at hP
            cases hP0 : runLinesP ⟨false, false, [], [], []⟩ ls with
            | error e => rw [hP0] at hP; cases hP
            | ok stP0 =>
              rw [hP0] at hP
              simp only [Except.map, Except.ok.injEq] at hP
              subst hP
              cases hres : resolve_search T (joinNL cs) with
              | none =>
                simp only [pshift, resolveBlocks, hres]
              | some r =>
                dsimp only
                have hashift := runLinesA_repls_shift T ls false false [] []
                  [⟨r.1, r.2, joinNL rs⟩] []
                simp only [List.append_nil] at hashift
                rw [hashift, ih false false [] [] stP0 hP0]
                simp only [pshift, resolveBlocks, hres]
                cases hrb : resolveBlocks T stP0.blocks with
                | error e => simp [hrb, Except.map]
                | ok nrs => simp [hrb, Except.map, ashift]
        · cases m1 with
          | true =>
            simp only [parseLine, h1, h2, h3, if_true, if_false, ite_true, ite_false] at hP
            simp only [applyLine, h1, h2, h3, if_true, if_false, ite_true, ite_false]
            exact ih true m2 (cs ++ [l]) rs stP hP
          | false =>
            cases m2 with
            | true =>
              simp only [parseLine, h1, h2, h3, if_true, if_false, ite_true,
                ite_false] at hP
              simp only [applyLine, h1, h2, h3, if_true, if_false, ite_true, ite_false]
              exact ih false true cs (rs ++ [l]) stP hP
            | false =>
              simp only [parseLine, h1, h2, h3, if_true, if_false, ite_true,
                ite_false] at hP
              simp only [applyLine, h1, h2, h3, if_true, if_false, ite_true, ite_false]
              exact ih false false cs rs stP hP

/-- `apply_diff` on a well-formed diff is: parse the blocks, resolve
them in order, sort the spans, check overlaps and rebuild. -/
theorem apply_diff_decomposed {T D : List Char} {bs : List EditBlock}
    (hp : parse_diff D = .ok bs) :
    apply_diff T D =
      match resolveBlocks T bs with
      | .error e => .error e
      | .ok rs =>
        if checkOverlap (-1) (sortRepls rs) = true then .ok (rebuild T 0 (sortRepls rs))
        else .error .overlappingEdits := by
  unfold parse_diff at hp
  unfold apply_diff
  cases hrun : runLinesP ⟨false, false, [], [], []⟩ (splitlines D) with
  | error e =>
    rw [hrun] at hp
    cases hp
  | ok stP =>
    rw [hrun] at hp
    dsimp only at hp
    by_cases hflag : (stP.inSearch || stP.inReplace) = true
    · rw [if_pos hflag] at hp
      cases hp
    · rw [if_neg hflag] at hp
      simp only [Except.ok.injEq] at hp
      rw [runA_of_runP T (splitlines D) false false [] [] stP hrun]
      rw [Bool.or_eq_true] at hflag
      push_neg at hflag
      simp only [Bool.not_eq_true] at hflag
      cases hrb : resolveBlocks T stP.blocks with
      | error e =>
        rw [hp] at hrb
        simp [hrb]
      | ok nrs =>
        rw [hp] at hrb
        simp [hrb, hflag.1, hflag.2]

theorem resolveBlocks_error_first (T : List Char) :
    ∀ (pre : List EditBlock) (b : EditBlock) (post : List EditBlock),
    (∀ b' ∈ pre, (resolve_search T (joinNL b'.searchLines)).isSome = true) →
    resolve_search T (joinNL b.searchLines) = none →
    resolveBlocks T (pre ++ b :: post) =
      .error (.unmatchedSearchBlock (joinNL b.searchLines))
  | [], b, post, _, hb => by
    simp only [List.nil_append, resolveBlocks, hb]
  | b0 :: pre, b, post, hpre, hb => by
    have h0 := hpre b0 (List.mem_cons_self b0 pre)
    rw [Option.isSome_iff_exists] at h0
    obtain ⟨r, hr⟩ := h0
    have ih := resolveBlocks_error_first T pre b post
      (fun b' hb' => hpre b' (List.mem_cons_of_mem b0 hb')) hb
    rw [List.cons_append, resolveBlocks.eq_def]
    simp only [hr, ih]

theorem resolveBlocks_forall2 {T : List Char} :
    ∀ {bs : List EditBlock} {rs : List Replacement}, resolveBlocks T bs = .ok rs →
    List.Forall₂ (fun (b : EditBlock) (r : Replacement) =>
      resolve_search T (joinNL b.searchLines) = some (r.start, r.stop) ∧
      r.content = joinNL b.replaceLines) bs rs := by
  intro bs
  induction bs with
  | nil =>
    intro rs h
    rw [resolveBlocks] at h
    simp only [Except.ok.injEq] at h
    subst h
    exact List.Forall₂.nil
  | cons b bs ih =>
    intro rs h
    rw [resolveBlocks.eq_def] at h
    dsimp only at h
    cases hres : resolve_search T (joinNL b.searchLines) with
    | none => rw [hres] at h; cases h
    | some r =>
      rw [hres] at h
      cases hrb : resolveBlocks T bs with
      | error e => rw [hrb] at h; cases h
      | ok rest =>
        rw [hrb] at h
        simp only [Except.ok.injEq] at h
        subst h
        exact List.Forall₂.cons ⟨hres, rfl⟩ (ih hrb)

theorem insertRepl_perm (r : Replacement) :
    ∀ l : List Replacement, (insertRepl r l).Perm (r :: l)
  | [] => List.Perm.refl _
  | x :: xs => by
    rw [insertRepl]
    by_cases h : x.start < r.start
    · rw [if_pos h]
      exact ((insertRepl_perm r xs).cons x).trans (List.Perm.swap r x xs)
    · rw [if_neg h]

theorem sortRepls_perm : ∀ l : List Replacement, (sortRepls l).Perm l
  | [] => List.Perm.refl _
  | r :: rs => (insertRepl_perm r (sortRepls rs)).trans ((sortRepls_perm rs).cons r)

theorem insertRepl_sorted (r : Replacement) :
    ∀ {l : List Replacement}, l.Pairwise (fun a b => a.start ≤ b.start) →
    (insertRepl r l).Pairwise (fun a b => a.start ≤ b.start) := by
  intro l
  induction l with
  | nil => intro _; simp [insertRepl]
  | cons x xs ih =>
    intro hl
    rw [List.pairwise_cons] at hl
    obtain ⟨hx, hxs⟩ := hl
    rw [insertRepl]
    by_cases h : x.start < r.start
    · rw [if_pos h]
      rw [List.pairwise_cons]
      constructor
      · intro y hy
        have hmem := (insertRepl_perm r xs).mem_iff.mp hy
        rcases List.mem_cons.mp hmem with hyr | hyxs
        · subst hyr; omega
        · exact hx y hyxs
      · exact ih hxs
    · rw [if_neg h]
      rw [List.pairwise_cons]
      constructor
      · intro y hy
        rcases List.mem_cons.mp hy with hyx | hyxs
        · subst hyx; omega
        · have := hx y hyxs; omega
      · rw [List.pairwise_cons]
        exact ⟨hx, hxs⟩

theorem sortRepls_sorted : ∀ l : List Replacement,
    (sortRepls l).Pairwise (fun a b => a.start ≤ b.start)
  | [] => List.Pairwise.nil
  | r :: rs => insertRepl_sorted r (sortRepls_sorted rs)

theorem checkOverlap_iff : ∀ (l : List Replacement) (p : Int),
    checkOverlap p l = true ↔
      ((∀ r0 ∈ l.head?, p ≤ (r0.start : Int)) ∧
        l.Chain' (fun a b => a.stop ≤ b.start)) := by
  intro l
  induction l with
  | nil => intro p; simp [checkOverlap]
  | cons r rs ih =>
    intro p
    rw [checkOverlap]
    by_cases h : (r.start : Int) < p
    · rw [if_pos h]
      simp only [Bool.false_eq_true, false_iff]
      intro hc
      have := hc.1 r rfl
      omega
    · rw [if_neg h]
      rw [ih]
      simp only [List.head?_cons, Option.mem_some_iff, List.chain'_cons']
      constructor
      · intro ⟨h1, h2⟩
        refine ⟨?_, ?_, h2⟩
        · intro r0 hr0
          subst hr0
          omega
        · intro b hb
          have := h1 b hb
          omega
      · intro ⟨h1, h2, h3⟩
        refine ⟨?_, h3⟩
        intro b hb
        have := h2 b hb
        omega

theorem checkOverlap_neg_one_iff (l : List Replacement) :
    checkOverlap (-1) l = true ↔ l.Chain' (fun a b => a.stop ≤ b.start) := by
  rw [checkOverlap_iff]
  constructor
  · intro h
    exact h.2
  · intro h
    refine ⟨?_, h⟩
    intro r0 _
    omega

theorem pySlice_append_drop {T : List Char} {a b : Nat} (hab : a ≤ b) :
    pySlice T a b ++ T.drop b = T.drop a := by
  unfold pySlice
  conv_rhs => rw [← List.take_append_drop b T]
  rw [List.drop_append_eq_append_drop]
  by_cases hc : a ≤ (T.take b).length
  · have h0 : a - (T.take b).length = 0 := by omega
    rw [h0, List.drop_zero]
  · have hlen : T.length < a := by
      rw [List.length_take] at hc
      omega
    have hnil : T.drop b = [] := List.drop_eq_nil_of_le (by omega)
    rw [hnil]
    simp

theorem pySlice_append_slice {T : List Char} {a b c : Nat} (hab : a ≤ b) (hbc : b ≤ c) :
    pySlice T a b ++ pySlice T b c = pySlice T a c := by
  have h1 : pySlice T a b = pySlice (T.take c) a b := by
    unfold pySlice
    rw [List.take_take, min_eq_left hbc]
  rw [h1]
  exact @pySlice_append_drop (T.take c) a b hab

theorem rebuild_id (T : List Char) :
    ∀ (rs : List Replacement) (pos : Nat),
    (∀ r ∈ rs, r.content = pySlice T r.start r.stop ∧ r.start ≤ r.stop) →
    rs.Chain' (fun a b => a.stop ≤ b.start) →
    (∀ r0 ∈ rs.head?, pos ≤ r0.start) →
    rebuild T pos rs = T.drop pos
  | [], pos, _, _, _ => rfl
  | r :: rs, pos, hmem, hchain, hpos => by
    rw [rebuild]
    obtain ⟨hcont, hse⟩ := hmem r (List.mem_cons_self r rs)
    rw [List.chain'_cons'] at hchain
    have ih := rebuild_id T rs r.stop
      (fun r' hr' => hmem r' (List.mem_cons_of_mem r hr')) hchain.2 hchain.1
    rw [ih, hcont, List.append_assoc, pySlice_append_drop hse,
      pySlice_append_drop (hpos r rfl)]

theorem occursAt_slice {T S : List Char} {i : Nat} (h : occursAt T S i = true) :
    pySlice T i (i + S.length) = S := by
  unfold occursAt at h
  have hpre := List.isPrefixOf_iff_prefix.mp h
  obtain ⟨t, ht⟩ := hpre
  unfold pySlice
  rw [List.drop_take]
  have h0 : i + S.length - i = S.length := by omega
  rw [h0, ← ht, List.take_left]

/-- The parse-and-validate portion of `apply_diff`, from an arbitrary
loop state. -/
def parseFrom (st : PState) (ls : List (List Char)) : Except DiffError (List EditBlock) :=
  match runLinesP st ls with
  | .error e => .error e
  | .ok st2 =>
    if st2.inSearch || st2.inReplace then .error .unclosedBlock else .ok st2.blocks

theorem parse_diff_eq_parseFrom (D : List Char) :
    parse_diff D = parseFrom ⟨false, false, [], [], []⟩ (splitlines D) := rfl

theorem is_search_block_end_head {l : List Char} (h : is_search_block_end l = true) :
    ∃ t, l = '=' :: t := by
  unfold is_search_block_end at h
  simp only [Bool.and_eq_true, decide_eq_true_eq] at h
  cases l with
  | nil => simp at h
  | cons c t =>
    have hc : (c == '=') = true := by
      have := h.2
      rw [List.all_cons] at this
      exact (Bool.and_eq_true _ _).mp this |>.1
    exact ⟨t, by rw [eq_of_beq hc]⟩

theorem is_replace_block_end_head {l : List Char} (h : is_replace_block_end l = true) :
    ∃ t, l = '+' :: t := by
  unfold is_replace_block_end at h
  simp only [Bool.and_eq_true, decide_eq_true_eq] at h
  cases l with
  | nil => simp at h
  | cons c t =>
    by_cases hc : c = '+'
    · exact ⟨t, by rw [hc]⟩
    · exfalso
      have : (List.takeWhile (fun c => c == '+') (c :: t)).length = 0 := by
        rw [List.takeWhile_cons]
        simp [hc]
      omega

theorem search_end_not_start {l : List Char} (h : is_search_block_end l = true) :
    is_search_block_start l = false := by
  obtain ⟨t, ht⟩ := is_search_block_end_head h
  subst ht
  unfold is_search_block_start
  simp [List.takeWhile_cons]

theorem replace_end_not_start {l : List Char} (h : is_replace_block_end l = true) :
    is_search_block_start l = false := by
  obtain ⟨t, ht⟩ := is_replace_block_end_head h
  subst ht
  unfold is_search_block_start
  simp [List.takeWhile_cons]

theorem replace_end_not_search_end {l : List Char} (h : is_replace_block_end l = true) :
    is_search_block_end l = false := by
  obtain ⟨t, ht⟩ := is_replace_block_end_head h
  subst ht
  unfold is_search_block_end
  simp [List.all_cons]

theorem isMarkerLine_false {l : List Char} (h : isMarkerLine l = false) :
    is_search_block_start l = false ∧ is_search_block_end l = false ∧
      is_replace_block_end l = false := by
  unfold isMarkerLine at h
  simp only [Bool.or_eq_false_iff] at h
  exact ⟨h.1.1, h.1.2, h.2⟩

theorem parseLine_junk {st : PState} {l : List Char} (h : isMarkerLine l = false)
    (h1 : st.inSearch = false) (h2 : st.inReplace = false) : parseLine st l = .ok st := by
  obtain ⟨hm1, hm2, hm3⟩ := isMarkerLine_false h
  simp [parseLine, hm1, hm2, hm3, h1, h2]

theorem parseLine_search_content {m2 : Bool} {cs rs : List (List Char)}
    {bs : List EditBlock} {l : List Char} (h : isMarkerLine l = false) :
    parseLine ⟨true, m2, cs, rs, bs⟩ l = .ok ⟨true, m2, cs ++ [l], rs, bs⟩ := by
  obtain ⟨hm1, hm2, hm3⟩ := isMarkerLine_false h
  simp [parseLine, hm1, hm2, hm3]

theorem parseLine_replace_content {cs rs : List (List Char)} {bs : List EditBlock}
    {l : List Char} (h : isMarkerLine l = false) :
    parseLine ⟨false, true, cs, rs, bs⟩ l = .ok ⟨false, true, cs, rs ++ [l], bs⟩ := by
  obtain ⟨hm1, hm2, hm3⟩ := isMarkerLine_false h
  simp [parseLine, hm1, hm2, hm3]

theorem parseLine_start {cs rs : List (List Char)} {bs : List EditBlock} {l : List Char}
    (h : is_search_block_start l = true) :
    parseLine ⟨false, false, cs, rs, bs⟩ l = .ok ⟨true, false, [], [], bs⟩ := by
  simp [parseLine, h]

theorem parseLine_sep {cs rs : List (List Char)} {bs : List EditBlock} {l : List Char}
    (h : is_search_block_end l = true) :
    parseLine ⟨true, false, cs, rs, bs⟩ l = .ok ⟨false, true, cs, rs, bs⟩ := by
  simp [parseLine, search_end_not_start h, h]

theorem parseLine_em {cs rs : List (List Char)} {bs : List EditBlock} {l : List Char}
    (h : is_replace_block_end l = true) :
    parseLine ⟨false, true, cs, rs, bs⟩ l =
      .ok ⟨false, false, [], [], bs ++ [⟨cs, rs⟩]⟩ := by
  simp [parseLine, replace_end_not_start h, replace_end_not_search_end h, h]

theorem parseFrom_cons_ok {st st2 : PState} {l : List Char} {ls : List (List Char)}
    (h : parseLine st l = .ok st2) : parseFrom st (l :: ls) = parseFrom st2 ls := by
  unfold parseFrom
  rw [runLinesP, h]

theorem parseFrom_cons_error {st : PState} {l : List Char} {ls : List (List Char)}
    {e : DiffError} (h : parseLine st l = .error e) :
    parseFrom st (l :: ls) = .error e := by
  unfold parseFrom
  rw [runLinesP, h]

theorem parseFrom_search_run :
    ∀ (s : List (List Char)), (∀ x ∈ s, isMarkerLine x = false) →
    ∀ (cs rs : List (List Char)) (bs : List EditBlock) (rest : List (List Char)),
    parseFrom ⟨true, false, cs, rs, bs⟩ (s ++ rest) =
      parseFrom ⟨true, false, cs ++ s, rs, bs⟩ rest
  | [], _, cs, rs, bs, rest => by simp
  | x :: s, h, cs, rs, bs, rest => by
    rw [List.cons_append,
      parseFrom_cons_ok (parseLine_search_content (h x (List.mem_cons_self x s))),
      parseFrom_search_run s (fun y hy => h y (List.mem_cons_of_mem x hy)) (cs ++ [x]) rs
        bs rest]
    simp

theorem parseFrom_replace_run :
    ∀ (r : List (List Char)), (∀ x ∈ r, isMarkerLine x = false) →
    ∀ (cs rs : List (List Char)) (bs : List EditBlock) (rest : List (List Char)),
    parseFrom ⟨false, true, cs, rs, bs⟩ (r ++ rest) =
      parseFrom ⟨false, true, cs, rs ++ r, bs⟩ rest
  | [], _, cs, rs, bs, rest => by simp
  | x :: r, h, cs, rs, bs, rest => by
    rw [List.cons_append,
      parseFrom_cons_ok (parseLine_replace_content (h x (List.mem_cons_self x r))),
      parseFrom_replace_run r (fun y hy => h y (List.mem_cons_of_mem x hy)) cs (rs ++ [x])
        bs rest]
    simp

/-- Completeness of the grammar: a well-formed line sequence parses to
exactly its blocks (with any already-accumulated prefix). -/
theorem parseFrom_complete {ls : List (List Char)} {bs : List EditBlock}
    (hg : DiffGrammar ls bs) :
    ∀ (cs0 rs0 : List (List Char)) (bacc : List EditBlock),
    parseFrom ⟨false, false, cs0, rs0, bacc⟩ ls = .ok (bacc ++ bs) := by
  induction hg with
  | nil =>
    intro cs0 rs0 bacc
    simp [parseFrom, runLinesP]
  | junk hm _ ih =>
    intro cs0 rs0 bacc
    rw [parseFrom_cons_ok (parseLine_junk hm rfl rfl)]
    exact ih cs0 rs0 bacc
  | block hst hs hsep hr hem _ ih =>
    intro cs0 rs0 bacc
    rw [parseFrom_cons_ok (parseLine_start hst),
      parseFrom_search_run _ hs [] [] bacc _,
      List.nil_append,
      parseFrom_cons_ok (parseLine_sep hsep),
      parseFrom_replace_run _ hr _ [] bacc _,
      List.nil_append,
      parseFrom_cons_ok (parseLine_em hem)]
    rw [ih [] [] _]
    simp

theorem parse_diff_complete {D : List Char} {bs : List EditBlock}
    (hg : DiffGrammar (splitlines D) bs) : parse_diff D = .ok bs := by
  rw [parse_diff_eq_parseFrom]
  have := parseFrom_complete hg [] [] []
  simpa using this

theorem parseLine_err_start_open {m1 m2 : Bool} {cs rs : List (List Char)}
    {bs : List EditBlock} {l : List Char} (h : is_search_block_start l = true)
    (hm : m1 = true ∨ m2 = true) :
    parseLine ⟨m1, m2, cs, rs, bs⟩ l = .error .unexpectedSearchStart := by
  rcases hm with hm | hm
  · subst hm
    cases m2 <;> simp [parseLine, h]
  · subst hm
    cases m1 <;> simp [parseLine, h]

theorem parseLine_err_end_closed {m2 : Bool} {cs rs : List (List Char)}
    {bs : List EditBlock} {l : List Char} (h1 : is_search_block_start l = false)
    (h2 : is_search_block_end l = true) :
    parseLine ⟨false, m2, cs, rs, bs⟩ l = .error .unexpectedSearchEnd := by
  simp [parseLine, h1, h2]

theorem parseLine_err_rep_closed {m1 : Bool} {cs rs : List (List Char)}
    {bs : List EditBlock} {l : List Char} (h1 : is_search_block_start l = false)
    (h2 : is_search_block_end l = false) (h3 : is_replace_block_end l = true) :
    parseLine ⟨m1, false, cs, rs, bs⟩ l = .error .unexpectedReplaceEnd := by
  cases m1 <;> simp [parseLine, h1, h2, h3]

mutual

theorem parseFrom_sound_idle :
    ∀ (ls : List (List Char)) (cs0 rs0 : List (List Char)) (bacc out : List EditBlock),
    parseFrom ⟨false, false, cs0, rs0, bacc⟩ ls = .ok out →
    ∃ bs, out = bacc ++ bs ∧ DiffGrammar ls bs
  | [], cs0, rs0, bacc, out, h => by
    simp only [parseFrom, runLinesP, Bool.or_self, Bool.false_eq_true, if_false,
      ite_false, Except.ok.injEq] at h
    exact ⟨[], by simp [← h], DiffGrammar.nil⟩
  | l :: ls, cs0, rs0, bacc, out, h => by
    by_cases h1 : is_search_block_start l = true
    · rw [parseFrom_cons_ok (parseLine_start h1)] at h
      obtain ⟨s, sep, r, em, rest, bs, hls, hs, hsep, hr, hem, hg, hout⟩ :=
        parseFrom_sound_search ls [] [] bacc out h
      refine ⟨⟨s, r⟩ :: bs, ?_, ?_⟩
      · simpa using hout
      · rw [hls]
        exact DiffGrammar.block h1 hs hsep hr hem hg
    · rw [Bool.not_eq_true] at h1
      by_cases h2 : is_search_block_end l = true
      · rw [parseFrom_cons_error (parseLine_err_end_closed h1 h2)] at h
        cases h
      · rw [Bool.not_eq_true] at h2
        by_cases h3 : is_replace_block_end l = true
        · rw [parseFrom_cons_error (parseLine_err_rep_closed h1 h2 h3)] at h
          cases h
        · rw [Bool.not_eq_true] at h3
          have hm : isMarkerLine l = false := by
            simp [isMarkerLine, h1, h2, h3]
          rw [parseFrom_cons_ok (parseLine_junk hm rfl rfl)] at h
          obtain ⟨bs, hout, hg⟩ := parseFrom_sound_idle ls cs0 rs0 bacc out h
          exact ⟨bs, hout, DiffGrammar.junk hm hg⟩

theorem parseFrom_sound_search :
    ∀ (ls : List (List Char)) (cs rs : List (List Char)) (bacc out : List EditBlock),
    parseFrom ⟨true, false, cs, rs, bacc⟩ ls = .ok out →
    ∃ s sep r em rest bs, ls = s ++ sep :: (r ++ em :: rest) ∧
      (∀ x ∈ s, isMarkerLine x = false) ∧ is_search_block_end sep = true ∧
      (∀ x ∈ r, isMarkerLine x = false) ∧ is_replace_block_end em = true ∧
      DiffGrammar rest bs ∧ out = bacc ++ ⟨cs ++ s, rs ++ r⟩ :: bs
  | [], cs, rs, bacc, out, h => by
    simp [parseFrom, runLinesP] at h
  | l :: ls, cs, rs, bacc, out, h => by
    by_cases h1 : is_search_block_start l = true
    · rw [parseFrom_cons_error (parseLine_err_start_open h1 (Or.inl rfl))] at h
      cases h
    · rw [Bool.not_eq_true] at h1
      by_cases h2 : is_search_block_end l = true
      · rw [parseFrom_cons_ok (parseLine_sep h2)] at h
        obtain ⟨r, em, rest, bs, hls, hr, hem, hg, hout⟩ :=
          parseFrom_sound_replace ls cs rs bacc out h
        exact ⟨[], l, r, em, rest, bs, by simp [hls], by simp, h2, hr, hem, hg,
          by simpa using hout⟩
      · rw [Bool.not_eq_true] at h2
        by_cases h3 : is_replace_block_end l = true
        · rw [parseFrom_cons_error (parseLine_err_rep_closed h1 h2 h3)] at h
          cases h
        · rw [Bool.not_eq_true] at h3
          have hm : isMarkerLine l = false := by
            simp [isMarkerLine, h1, h2, h3]
          rw [parseFrom_cons_ok (parseLine_search_content hm)] at h
          obtain ⟨s, sep, r, em, rest, bs, hls, hs, hsep, hr, hem, hg, hout⟩ :=
            parseFrom_sound_search ls (cs ++ [l]) rs bacc out h
          refine ⟨l :: s, sep, r, em, rest, bs, by rw [hls]; simp, ?_, hsep, hr, hem, hg, ?_⟩
          · intro x hx
            rcases List.mem_cons.mp hx with hxl | hxs
            · subst hxl; exact hm
            · exact hs x hxs
          · simpa [List.append_assoc] using hout

theorem parseFrom_sound_replace :
    ∀ (ls : List (List Char)) (cs rs : List (List Char)) (bacc out : List EditBlock),
    parseFrom ⟨false, true, cs, rs, bacc⟩ ls = .ok out →
    ∃ r em rest bs, ls = r ++ em :: rest ∧
      (∀ x ∈ r, isMarkerLine x = false) ∧ is_replace_block_end em = true ∧
      DiffGrammar rest bs ∧ out = bacc ++ ⟨cs, rs ++ r⟩ :: bs
  | [], cs, rs, bacc, out, h => by
    simp [parseFrom, runLinesP] at h
  | l :: ls, cs, rs, bacc, out, h => by
    by_cases h1 : is_search_block_start l = true
    · rw [parseFrom_cons_error (parseLine_err_start_open h1 (Or.inr rfl))] at h
      cases h
    · rw [Bool.not_eq_true] at h1
      by_cases h2 : is_search_block_end l = true
      · rw [parseFrom_cons_error (parseLine_err_end_closed h1 h2)] at h
        cases h
      · rw [Bool.not_eq_true] at h2
        by_cases h3 : is_replace_block_end l = true
        · rw [parseFrom_cons_ok (parseLine_em h3)] at h
          obtain ⟨bs, hout, hg⟩ := parseFrom_sound_idle ls [] [] (bacc ++ [⟨cs, rs⟩]) out h
          refine ⟨[], l, ls, bs, by simp, by simp, h3, hg, ?_⟩
          rw [hout]
          simp
        · rw [Bool.not_eq_true] at h3
          have hm : isMarkerLine l = false := by
            simp [isMarkerLine, h1, h2, h3]
          rw [parseFrom_cons_ok (parseLine_replace_content hm)] at h
          obtain ⟨r, em, rest, bs, hls, hr, hem, hg, hout⟩ :=
            parseFrom_sound_replace ls cs (rs ++ [l]) bacc out h
          refine ⟨l :: r, em, rest, bs, by rw [hls]; simp, ?_, hem, hg, ?_⟩
          · intro x hx
            rcases List.mem_cons.mp hx with hxl | hxr
            · subst hxl; exact hm
            · exact hr x hxr
          · simpa [List.append_assoc] using hout

end

theorem parse_diff_sound {D : List Char} {bs : List EditBlock}
    (h : parse_diff D = .ok bs) : DiffGrammar (splitlines D) bs := by
  rw [parse_diff_eq_parseFrom] at h
  obtain ⟨bs2, hout, hg⟩ := parseFrom_sound_idle (splitlines D) [] [] [] bs h
  simp only [List.nil_append] at hout
  rw [hout]
  exact hg

theorem parseLine_error_cases {st : PState} {l : List Char} {e : DiffError}
    (h : parseLine st l = .error e) :
    e = .unexpectedSearchStart ∨ e = .unexpectedSearchEnd ∨
      e = .unexpectedReplaceEnd := by
  rcases st with ⟨m1, m2, cs, rs, bs⟩
  by_cases h1 : is_search_block_start l = true <;>
    by_cases h2 : is_search_block_end l = true <;>
      by_cases h3 : is_replace_block_end l = true <;>
        cases m1 <;> cases m2 <;>
          simp [parseLine, h1, h2, h3] at h <;>
            tauto

theorem runLinesP_error_cases {e : DiffError} :
    ∀ (ls : List (List Char)) (st : PState), runLinesP st ls = .error e →
    e = .unexpectedSearchStart ∨ e = .unexpectedSearchEnd ∨
      e = .unexpectedReplaceEnd
  | [], st, h => by
    rw [runLinesP] at h
    cases h
  | l :: ls, st, h => by
    rw [runLinesP] at h
    cases hpl : parseLine st l with
    | error e2 =>
      rw [hpl] at h
      cases h
      exact parseLine_error_cases hpl
    | ok st2 =>
      rw [hpl] at h
      exact runLinesP_error_cases ls st2 h

theorem parse_diff_error_cases {D : List Char} {e : DiffError}
    (h : parse_diff D = .error e) :
    e = .unexpectedSearchStart ∨ e = .unexpectedSearchEnd ∨
      e = .unexpectedReplaceEnd ∨ e = .unclosedBlock := by
  unfold parse_diff at h
  cases hrun : runLinesP ⟨false, false, [], [], []⟩ (splitlines D) with
  | error e2 =>
    rw [hrun] at h
    dsimp only at h
    cases h
    rcases runLinesP_error_cases (splitlines D) _ hrun with h | h | h <;> tauto
  | ok st =>
    rw [hrun] at h
    dsimp only at h
    by_cases hf : (st.inSearch || st.inReplace) = true
    · rw [if_pos hf] at h
      cases h
      tauto
    · rw [if_neg hf] at h
      cases h

theorem parse_diff_ok_iff {D : List Char} {bs : List EditBlock} :
    parse_diff D = .ok bs ↔ DiffGrammar (splitlines D) bs :=
  ⟨parse_diff_sound, parse_diff_complete⟩

instance exceptDecEq {e a : Type} [DecidableEq e] [DecidableEq a] :
    DecidableEq (Except e a)
  | .error x, .error y =>
    if h : x = y then .isTrue (by rw [h])
    else .isFalse (by intro hc; cases hc; exact h rfl)
  | .error x, .ok y => .isFalse (by intro hc; cases hc)
  | .ok x, .error y => .isFalse (by intro hc; cases hc)
  | .ok x, .ok y =>
    if h : x = y then .isTrue (by rw [h])
    else .isFalse (by intro hc; cases hc; exact h rfl)

/-! Concrete test fixtures used by the claim theorems below. -/

def cex2T : List Char := "m\nn".toList
def cex2S : List Char := "q\nm\nn".toList
def ex60T : List Char := "a\nb\nc\nx\ny\n".toList
def ex60S : List Char := "a\nb\nc\np\nq".toList
def lineChar (i : Nat) : Char := Char.ofNat (160 + i)
def bigLines (m : Nat) : List (List Char) := (List.range m).map (fun i => [lineChar i])
def ex59S : List Char := joinNL (bigLines 100)
def ex59T : List Char := ((bigLines 59).map (fun l => l ++ ['\n'])).flatten
def cex8T : List Char := "a \nb ".toList
def cex8D : List Char := "------- SEARCH\na\nb\n=======\na\nb\n+++++++ REPLACE".toList
def cex8R : List Char := "a\nb".toList
def insT : List Char := "hello".toList
def insD : List Char := "------- SEARCH\n=======\nX\n+++++++ REPLACE".toList
def insR : List Char := "Xhello".toList
def anchor2T : List Char := "x\ny\n".toList
def anchor2S : List Char := "x\ny".toList
def anchor3T : List Char := "x\nq\nz\n".toList
def anchor3S : List Char := "x\ny\nz".toList
def w1T : List Char := "hello world hello".toList
def w1S : List Char := "hello".toList
def w4T : List Char := "hello world".toList
def w4D : List Char :=
  ("------- SEARCH\nhello\n=======\nHI\n+++++++ REPLACE\n" ++
    "------- SEARCH\nzzz\n=======\nyy\n+++++++ REPLACE").toList
def w4B1 : EditBlock := ⟨[['h', 'e', 'l', 'l', 'o']], [['H', 'I']]⟩
def w4B2 : EditBlock := ⟨[['z', 'z', 'z']], [['y', 'y']]⟩
def w5T : List Char := "abcdef".toList
def w5D : List Char :=
  ("------- SEARCH\nabc\n=======\nX\n+++++++ REPLACE\n" ++
    "------- SEARCH\ndef\n=======\nY\n+++++++ REPLACE").toList
def w5RS : List Replacement := [⟨0, 3, ['X']⟩, ⟨3, 6, ['Y']⟩]
def w5BS : List EditBlock :=
  [⟨[['a', 'b', 'c']], [['X']]⟩, ⟨[['d', 'e', 'f']], [['Y']]⟩]
def w8T : List Char := "abc\ndef".toList
def w8D : List Char := "------- SEARCH\nabc\n=======\nabc\n+++++++ REPLACE".toList
def w8B : EditBlock := ⟨[['a', 'b', 'c']], [['a', 'b', 'c']]⟩
def err1D : List Char := "------- SEARCH\n------- SEARCH".toList
def err2D : List Char := "=======".toList
def err3D : List Char := "+++++++ REPLACE".toList
def err4D : List Char := "------- SEARCH\nfoo".toList
def vbD : List Char := "------- SEARCH\n\n x\n=======\n\n+++++++ REPLACE".toList
def vbB : EditBlock := ⟨[[], [' ', 'x']], [[]]⟩

/-- Claim C1: if an edit block's search content occurs verbatim as a
substring of the original text, the resolution cascade of `apply_diff`
(`resolve_search`, lines 215-250 of `diff_utils.py`) resolves it through
the exact matcher to the span of the first exact occurrence — the
fuzzy, line-trimmed and block-anchor strategies are never consulted,
even if an approximate match exists elsewhere. -/
theorem claim_C1_exact_preference (T S : List Char)
    (h : ∃ i, occursAt T S i = true) :
    ∃ i, pyFind T S = some i ∧ occursAt T S i = true ∧
      (∀ j < i, occursAt T S j = false) ∧
      resolve_search T S = some (i, i + S.length) := by
  obtain ⟨i0, hi0⟩ := h
  obtain ⟨j, _, hfind⟩ := pyFind_complete hi0
  refine ⟨j, hfind, (pyFind_isPrefix hfind).1, (pyFind_isPrefix hfind).2, ?_⟩
  unfold resolve_search
  rw [hfind]

theorem claim_C1_exact_preference_witness :
    ∃ i, pyFind w1T w1S = some i ∧ occursAt w1T w1S i = true ∧
      (∀ j < i, occursAt w1T w1S j = false) ∧
      resolve_search w1T w1S = some (i, i + w1S.length) :=
  claim_C1_exact_preference w1T w1S ⟨12, by decide⟩

/-- Claim C2 counterexample: on `cex2T`/`cex2S` the longest common
contiguous line run covers 2 of 3 search lines (66% ≥ 60%) and the
exact matcher fails, yet `fuzzy_match` returns no match — the anchored
window would start before line 0 — so "accepts if and only if the
coverage ratio is at least 0.6" is false as stated. -/
theorem claim_C2_counterexample :
    pyFind cex2T cex2S = none ∧
      (∃ i j k, CommonRunAt (splitlinesKeep cex2T) (splitlinesKeep cex2S) i j k ∧
        6 * (splitlinesKeep cex2S).length ≤ 10 * k) ∧
      fuzzy_match cex2T cex2S = none :=
  ⟨by decide, ⟨0, 1, 2, by decide, by decide⟩, by decide⟩

set_option maxRecDepth 4000 in
/-- Claim C2 (amended): when the exact matcher fails, the fuzzy matcher
accepts if and only if some contiguous run of lines common to the
original and the search block covers at least 60% of the search lines
AND the window anchored on the longest such run stays inside the
original's line range.  At exactly 60% coverage (`ex60T`/`ex60S`, 3 of
5 lines) the match is accepted; at 59% coverage (`ex59T`/`ex59S`, 59 of
100 lines) it is rejected; and whenever both the exact and the fuzzy
matchers fail, `resolve_search` falls through to the line-trimmed and
then the block-anchor matcher. -/
theorem claim_C2_fuzzy_threshold :
    (∀ T S : List Char, splitlinesKeep S ≠ [] →
      ((fuzzy_match T S).isSome = true ↔
        ((∃ i j k, CommonRunAt (splitlinesKeep T) (splitlinesKeep S) i j k ∧
            6 * (splitlinesKeep S).length ≤ 10 * k) ∧
          (find_longest_match (splitlinesKeep T) (splitlinesKeep S)).b ≤
            (find_longest_match (splitlinesKeep T) (splitlinesKeep S)).a ∧
          (find_longest_match (splitlinesKeep T) (splitlinesKeep S)).a -
              (find_longest_match (splitlinesKeep T) (splitlinesKeep S)).b +
              (splitlinesKeep S).length ≤ (splitlinesKeep T).length))) ∧
    ((fuzzy_match ex60T ex60S).isSome = true ∧
      10 * (find_longest_match (splitlinesKeep ex60T) (splitlinesKeep ex60S)).size =
        6 * (splitlinesKeep ex60S).length) ∧
    (fuzzy_match ex59T ex59S = none ∧ pyFind ex59T ex59S = none ∧
      (∃ i j k, CommonRunAt (splitlinesKeep ex59T) (splitlinesKeep ex59S) i j k ∧
        100 * k = 59 * (splitlinesKeep ex59S).length)) ∧
    (∀ T S : List Char, pyFind T S = none → fuzzy_match T S = none →
      resolve_search T S =
        match line_trimmed_fallback_match T S 0 with
        | some r => some r
        | none => block_anchor_fallback_match T S 0) := by
  refine ⟨?_, ⟨by decide, by decide⟩, ⟨?_, ?_, ⟨0, 0, 59, by decide, by decide⟩⟩, ?_⟩
  · intro T S hS
    constructor
    · intro hsome
      rw [Option.isSome_iff_exists] at hsome
      obtain ⟨p, hp⟩ := hsome
      rcases p with ⟨s, e⟩
      obtain ⟨hsize, hratio⟩ := fuzzy_match_gate hp
      obtain ⟨hba, hbound, _⟩ := fuzzy_match_some hp
      exact ⟨⟨(find_longest_match (splitlinesKeep T) (splitlinesKeep S)).a,
        (find_longest_match (splitlinesKeep T) (splitlinesKeep S)).b,
        (find_longest_match (splitlinesKeep T) (splitlinesKeep S)).size,
        find_longest_match_realizes (splitlinesKeep T) (splitlinesKeep S), hratio⟩,
        hba, hbound⟩
    · intro ⟨⟨i, j, k, hrun, hratio⟩, hba, hbound⟩
      have hmax := find_longest_match_max hrun
      have hn : 1 ≤ (splitlinesKeep S).length := by
        have := List.length_pos.mpr hS
        omega
      apply fuzzy_match_isSome hS ⟨by omega, by omega⟩ hba hbound
  · apply fuzzy_match_gate_fail
    intro hgate
    obtain ⟨h1, h2⟩ := hgate
    obtain ⟨ha, hb, hc⟩ :=
      find_longest_match_realizes (splitlinesKeep ex59T) (splitlinesKeep ex59S)
    have h59 : (splitlinesKeep ex59T).length = 59 := by decide
    have h100 : (splitlinesKeep ex59S).length = 100 := by decide
    omega
  · decide
  · intro T S h1 h2
    exact resolve_search_fallthrough h1 h2

theorem claim_C2_fuzzy_threshold_witness :
    resolve_search cex2T cex2S =
      match line_trimmed_fallback_match cex2T cex2S 0 with
      | some r => some r
      | none => block_anchor_fallback_match cex2T cex2S 0 :=
  claim_C2_fuzzy_threshold.2.2.2 cex2T cex2S (by decide) (by decide)

/-- Claim C3: whenever the fuzzy matcher accepts, the candidate window
in the original starts at line `a - b` (run position in the original
minus run offset in the search block) and spans exactly
`len(search_lines)` lines, and the returned character span is the sum
of the line lengths up to, respectively across, that window; if that
window would start before line 0 or end past the last original line,
`fuzzy_match` returns no match instead of clamping. -/
theorem claim_C3_fuzzy_window (T S : List Char) :
    (∀ s e, fuzzy_match T S = some (s, e) →
      (find_longest_match (splitlinesKeep T) (splitlinesKeep S)).b ≤
          (find_longest_match (splitlinesKeep T) (splitlinesKeep S)).a ∧
        (find_longest_match (splitlinesKeep T) (splitlinesKeep S)).a -
            (find_longest_match (splitlinesKeep T) (splitlinesKeep S)).b +
            (splitlinesKeep S).length ≤ (splitlinesKeep T).length ∧
        s = (((splitlinesKeep T).take
            ((find_longest_match (splitlinesKeep T) (splitlinesKeep S)).a -
              (find_longest_match (splitlinesKeep T) (splitlinesKeep S)).b)).map
            List.length).sum ∧
        e = s + ((((splitlinesKeep T).drop
            ((find_longest_match (splitlinesKeep T) (splitlinesKeep S)).a -
              (find_longest_match (splitlinesKeep T) (splitlinesKeep S)).b)).take
            (splitlinesKeep S).length).map List.length).sum ∧
        (((splitlinesKeep T).drop
            ((find_longest_match (splitlinesKeep T) (splitlinesKeep S)).a -
              (find_longest_match (splitlinesKeep T) (splitlinesKeep S)).b)).take
            (splitlinesKeep S).length).length = (splitlinesKeep S).length) ∧
    ((((find_longest_match (splitlinesKeep T) (splitlinesKeep S)).a : Int) -
          (find_longest_match (splitlinesKeep T) (splitlinesKeep S)).b < 0 ∨
        ((splitlinesKeep T).length : Int) <
          ((find_longest_match (splitlinesKeep T) (splitlinesKeep S)).a : Int) -
            (find_longest_match (splitlinesKeep T) (splitlinesKeep S)).b +
            (splitlinesKeep S).length) →
      fuzzy_match T S = none) :=
  ⟨fun _ _ h => fuzzy_match_some h, fuzzy_match_oob⟩

theorem claim_C3_fuzzy_window_witness : fuzzy_match cex2T cex2S = none :=
  (claim_C3_fuzzy_window cex2T cex2S).2 (by decide)

theorem exists_first_failing {T : List Char} :
    ∀ {bs : List EditBlock},
    (∃ b ∈ bs, resolve_search T (joinNL b.searchLines) = none) →
    ∃ pre b post, bs = pre ++ b :: post ∧
      (∀ b2 ∈ pre, (resolve_search T (joinNL b2.searchLines)).isSome = true) ∧
      resolve_search T (joinNL b.searchLines) = none := by
  intro bs
  induction bs with
  | nil =>
    intro hex
    obtain ⟨b, hb, _⟩ := hex
    cases hb
  | cons b0 bs ih =>
    intro hex
    cases hres : resolve_search T (joinNL b0.searchLines) with
    | none => exact ⟨[], b0, bs, rfl, by simp, hres⟩
    | some r =>
      have hex2 : ∃ b ∈ bs, resolve_search T (joinNL b.searchLines) = none := by
        obtain ⟨b, hb, hbn⟩ := hex
        rcases List.mem_cons.mp hb with hb0 | hb2
        · subst hb0
          rw [hres] at hbn
          cases hbn
        · exact ⟨b, hb2, hbn⟩
      obtain ⟨pre, b, post, hbs, hpre, hb⟩ := ih hex2
      refine ⟨b0 :: pre, b, post, by rw [hbs]; simp, ?_, hb⟩
      intro b2 hb2
      rcases List.mem_cons.mp hb2 with hb20 | hb2p
      · subst hb20
        rw [hres]
        rfl
      · exact hpre b2 hb2p

/-- Claim C4: if any edit block of a well-formed diff fails all four
matching strategies, `apply_diff` fails with `UnmatchedSearchBlock`
carrying that (first such) block's search text, and no patched output
is produced: the call returns no `ok` result, and — the engine being a
pure function of its inputs — the original text is untouched. -/
theorem claim_C4_unmatched_block (T D : List Char) (bs : List EditBlock)
    (hp : parse_diff D = .ok bs)
    (hfail : ∃ b ∈ bs, resolve_search T (joinNL b.searchLines) = none) :
    ∃ b ∈ bs, resolve_search T (joinNL b.searchLines) = none ∧
      apply_diff T D = .error (.unmatchedSearchBlock (joinNL b.searchLines)) ∧
      ∀ R, apply_diff T D ≠ .ok R := by
  obtain ⟨pre, b, post, hbs, hpre, hb⟩ := exists_first_failing hfail
  have hdec := apply_diff_decomposed (T := T) hp
  rw [hbs, resolveBlocks_error_first T pre b post hpre hb] at hdec
  dsimp only at hdec
  refine ⟨b, by rw [hbs]; simp, hb, hdec, ?_⟩
  intro R hR
  rw [hdec] at hR
  cases hR

theorem claim_C4_unmatched_block_witness :
    ∃ b ∈ [w4B1, w4B2], resolve_search w4T (joinNL b.searchLines) = none ∧
      apply_diff w4T w4D = .error (.unmatchedSearchBlock (joinNL b.searchLines)) ∧
      ∀ R, apply_diff w4T w4D ≠ .ok R :=
  claim_C4_unmatched_block w4T w4D [w4B1, w4B2] (by decide) ⟨w4B2, by decide, by decide⟩

/-- Claim C5: once all blocks of a well-formed diff resolve, the
replacements are stably sorted by start offset; the overlap scan
(`checkOverlap`, starting from `last_end = -1`) accepts exactly the
chains in which every replacement starts no earlier than the previous
replacement's end, so `apply_diff` fails with `OverlappingEdits`
exactly when some replacement starts strictly before the previous one's
end — spans that merely touch are allowed and produce the rebuilt
output. -/
theorem claim_C5_overlap (T D : List Char) (bs : List EditBlock) (rs : List Replacement)
    (hp : parse_diff D = .ok bs) (hr : resolveBlocks T bs = .ok rs) :
    (sortRepls rs).Pairwise (fun a b => a.start ≤ b.start) ∧
    (sortRepls rs).Perm rs ∧
    (checkOverlap (-1) (sortRepls rs) = true ↔
      (sortRepls rs).Chain' (fun a b => a.stop ≤ b.start)) ∧
    (¬ (sortRepls rs).Chain' (fun a b => a.stop ≤ b.start) →
      apply_diff T D = .error .overlappingEdits) ∧
    ((sortRepls rs).Chain' (fun a b => a.stop ≤ b.start) →
      apply_diff T D = .ok (rebuild T 0 (sortRepls rs))) := by
  have hdec := apply_diff_decomposed (T := T) hp
  rw [hr] at hdec
  dsimp only at hdec
  refine ⟨sortRepls_sorted rs, sortRepls_perm rs, checkOverlap_neg_one_iff _, ?_, ?_⟩
  · intro hnc
    rw [hdec, if_neg (fun hco => hnc ((checkOverlap_neg_one_iff _).mp hco))]
  · intro hc
    rw [hdec, if_pos ((checkOverlap_neg_one_iff _).mpr hc)]

theorem claim_C5_overlap_witness :
    apply_diff w5T w5D = .ok (rebuild w5T 0 (sortRepls w5RS)) :=
  (claim_C5_overlap w5T w5D w5BS w5RS (by decide) (by decide)).2.2.2.2
    ((checkOverlap_neg_one_iff (sortRepls w5RS)).mp (by decide))

/-- Claim C6: the diff parser accepts exactly the line sequences of the
block grammar (junk lines outside blocks skipped; each block a start
marker, verbatim non-marker search lines, a `=======` separator,
verbatim non-marker replace lines and a `+++++++ REPLACE` terminator —
blank lines and arbitrary content are kept verbatim), and every parse
failure is one of the four errors: start marker inside an open block,
search-end without an open search section, replace-end without an open
replace section, or end of input with a block still open.  The four
concrete fixtures exhibit each error, and `vbD` shows blank/indented
content preserved verbatim. -/
theorem claim_C6_diff_grammar (D : List Char) :
    (∀ bs, parse_diff D = .ok bs ↔ DiffGrammar (splitlines D) bs) ∧
    (∀ e, parse_diff D = .error e →
      e = .unexpectedSearchStart ∨ e = .unexpectedSearchEnd ∨
        e = .unexpectedReplaceEnd ∨ e = .unclosedBlock) ∧
    parse_diff err1D = .error .unexpectedSearchStart ∧
    parse_diff err2D = .error .unexpectedSearchEnd ∧
    parse_diff err3D = .error .unexpectedReplaceEnd ∧
    parse_diff err4D = .error .unclosedBlock ∧
    parse_diff vbD = .ok [vbB] :=
  ⟨fun _ => parse_diff_ok_iff, fun _ => parse_diff_error_cases,
    by decide, by decide, by decide, by decide, by decide⟩

theorem claim_C6_diff_grammar_witness :
    DiffGrammar (splitlines cex8D) [⟨[['a'], ['b']], [['a'], ['b']]⟩] :=
  ((claim_C6_diff_grammar cex8D).1 _).mp (by decide)

/-- Claim C7: the block-anchor matcher fails immediately for search
blocks of fewer than 3 lines — in particular a 2-line block whose
trimmed first and last lines do match a 2-line run of the original
(`anchor2T`/`anchor2S`) is still rejected — and for blocks of 3 or
more lines it returns the span of the first forward-scanned window of
exactly `len(search_lines)` original lines whose trimmed first and last
lines equal the block's trimmed first and last lines, interior lines
unchecked. -/
theorem claim_C7_block_anchor :
    (∀ T S : List Char, ∀ si, (splitlines S).length < 3 →
      block_anchor_fallback_match T S si = none) ∧
    (block_anchor_fallback_match anchor2T anchor2S 0 = none ∧
      (splitlines anchor2S).length = 2 ∧
      pyStrip ((splitlines anchor2T).getD 0 []) = pyStrip ((splitlines anchor2S).headD []) ∧
      pyStrip ((splitlines anchor2T).getD 1 []) =
        pyStrip ((splitlines anchor2S).getLastD [])) ∧
    (∀ T S : List Char, ∀ s e, block_anchor_fallback_match T S 0 = some (s, e) →
      3 ≤ (splitlines S).length ∧
      ∃ i, i + (splitlines S).length ≤ (splitlines T).length ∧
        anchorMatchAt (splitlines T) (pyStrip ((splitlines S).headD []))
          (pyStrip ((splitlines S).getLastD [])) (splitlines S).length i = true ∧
        (∀ j < i, anchorMatchAt (splitlines T) (pyStrip ((splitlines S).headD []))
          (pyStrip ((splitlines S).getLastD [])) (splitlines S).length j = false) ∧
        s = lineCharStart (splitlines T) i ∧
        e = s + ((((splitlines T).drop i).take (splitlines S).length).map
          (fun l => l.length + 1)).sum - 1) ∧
    (∀ T S : List Char, ∀ i, 3 ≤ (splitlines S).length →
      i + (splitlines S).length ≤ (splitlines T).length →
      anchorMatchAt (splitlines T) (pyStrip ((splitlines S).headD []))
        (pyStrip ((splitlines S).getLastD [])) (splitlines S).length i = true →
      (block_anchor_fallback_match T S 0).isSome = true) := by
  refine ⟨?_, by decide, ?_, ?_⟩
  · intro T S si h
    unfold block_anchor_fallback_match
    rw [if_pos h]
  · intro T S s e h
    simp only [block_anchor_fallback_match] at h
    split at h
    · cases h
    · next h3 =>
      rw [Nat.not_lt] at h3
      refine ⟨h3, ?_⟩
      cases hfi : findFirstIdx (anchorMatchAt (splitlines T)
          (pyStrip ((splitlines S).headD [])) (pyStrip ((splitlines S).getLastD []))
          (splitlines S).length) (countNL T 0) ((splitlines T).length + 1 -
          (splitlines S).length) with
      | none => rw [hfi] at h; cases h
      | some i =>
        rw [hfi] at h
        simp only [Option.some.injEq, Prod.mk.injEq] at h
        obtain ⟨hs, he⟩ := h
        obtain ⟨h1, h2, hp, h4⟩ := findFirstIdx_some hfi
        have hc0 : countNL T 0 = 0 := by simp [countNL]
        refine ⟨i, by omega, hp, ?_, hs.symm, ?_⟩
        · intro j hj
          exact h4 j (by omega) hj
        · rw [← hs, ← he]
  · intro T S i h3 hin hp
    simp only [block_anchor_fallback_match]
    rw [if_neg (Nat.not_lt.mpr h3)]
    have hc0 : countNL T 0 = 0 := by simp [countNL]
    have hsome := @findFirstIdx_isSome _ (countNL T 0)
      ((splitlines T).length + 1 - (splitlines S).length) i (by omega) (by omega) hp
    cases hfi : findFirstIdx (anchorMatchAt (splitlines T)
        (pyStrip ((splitlines S).headD [])) (pyStrip ((splitlines S).getLastD []))
        (splitlines S).length) (countNL T 0) ((splitlines T).length + 1 -
        (splitlines S).length) with
    | none =>
      rw [hfi] at hsome
      cases hsome
    | some j => rfl

theorem claim_C7_block_anchor_witness :
    (block_anchor_fallback_match anchor3T anchor3S 0).isSome = true :=
  claim_C7_block_anchor.2.2.2 anchor3T anchor3S 0 (by decide) (by decide) (by decide)

theorem resolved_exact_slices {T : List Char} :
    ∀ {bs : List EditBlock} {rs : List Replacement},
    List.Forall₂ (fun (b : EditBlock) (r : Replacement) =>
      resolve_search T (joinNL b.searchLines) = some (r.start, r.stop) ∧
      r.content = joinNL b.replaceLines) bs rs →
    (∀ b ∈ bs, b.replaceLines = b.searchLines ∧
      ∃ i, occursAt T (joinNL b.searchLines) i = true) →
    ∀ r ∈ rs, r.content = pySlice T r.start r.stop ∧ r.start ≤ r.stop := by
  intro bs rs hF
  induction hF with
  | nil =>
    intro _ r hr
    cases hr
  | @cons b r2 bs2 rs2 hrel hF2 ih =>
    intro hno r hr
    rcases List.mem_cons.mp hr with hr1 | hr2
    · subst hr1
      obtain ⟨hres, hcont⟩ := hrel
      obtain ⟨hrep, i0, hocc⟩ := hno b (List.mem_cons_self b bs2)
      obtain ⟨j, _, hfind⟩ := pyFind_complete hocc
      have hres2 : resolve_search T (joinNL b.searchLines) =
          some (j, j + (joinNL b.searchLines).length) := by
        unfold resolve_search
        rw [hfind]
      rw [hres] at hres2
      simp only [Option.some.injEq, Prod.mk.injEq] at hres2
      obtain ⟨hstart, hstop⟩ := hres2
      have hslice := occursAt_slice (pyFind_isPrefix hfind).1
      constructor
      · rw [hcont, hrep, hstart, hstop, hslice]
      · omega
    · exact ih (fun b2 hb2 => hno b2 (List.mem_cons_of_mem b hb2)) r hr2

/-- Claim C8 counterexample: a well-formed diff whose single block has
`replace_lines` equal to `search_lines` (both `["a", "b"]`), applied to
`"a \nb "`: the block resolves via the line-trimmed matcher, and
`apply_diff` succeeds with `"a\nb"` — not the original text.  The
idempotence claim is therefore false as stated. -/
theorem claim_C8_counterexample :
    parse_diff cex8D = .ok [⟨[['a'], ['b']], [['a'], ['b']]⟩] ∧
    (∀ b ∈ [(⟨[['a'], ['b']], [['a'], ['b']]⟩ : EditBlock)],
      b.replaceLines = b.searchLines) ∧
    apply_diff cex8T cex8D = .ok cex8R ∧ cex8R ≠ cex8T :=
  ⟨by decide, by decide, by decide, by decide⟩

/-- Claim C8 (amended): for a well-formed diff in which every block's
replace lines equal its search lines AND every block's search content
occurs verbatim in the original text (so each block resolves through
the exact matcher), a successful `apply_diff` returns the original text
unchanged. -/
theorem claim_C8_noop_diff (T D : List Char) (bs : List EditBlock)
    (hp : parse_diff D = .ok bs)
    (hno : ∀ b ∈ bs, b.replaceLines = b.searchLines ∧
      ∃ i, occursAt T (joinNL b.searchLines) i = true)
    (R : List Char) (hap : apply_diff T D = .ok R) : R = T := by
  have hdec := apply_diff_decomposed (T := T) hp
  cases hrb : resolveBlocks T bs with
  | error e =>
    rw [hrb] at hdec
    dsimp only at hdec
    rw [hdec] at hap
    cases hap
  | ok rs =>
    rw [hrb] at hdec
    dsimp only at hdec
    rw [hdec] at hap
    by_cases hco : checkOverlap (-1) (sortRepls rs) = true
    · rw [if_pos hco] at hap
      simp only [Except.ok.injEq] at hap
      subst hap
      have hchain := (checkOverlap_neg_one_iff _).mp hco
      have hP := resolved_exact_slices (resolveBlocks_forall2 hrb) hno
      have hPs : ∀ r ∈ sortRepls rs,
          r.content = pySlice T r.start r.stop ∧ r.start ≤ r.stop :=
        fun r hr => hP r ((sortRepls_perm rs).mem_iff.mp hr)
      rw [rebuild_id T (sortRepls rs) 0 hPs hchain (fun r0 _ => Nat.zero_le _),
        List.drop_zero]
    · rw [if_neg hco] at hap
      cases hap

theorem claim_C8_noop_diff_witness :
    apply_diff w8T w8D = .ok w8T ∧ w8T = w8T :=
  ⟨by decide, claim_C8_noop_diff w8T w8D [w8B] (by decide)
    (fun b hb => by
      have hbe := List.mem_singleton.mp hb
      subst hbe
      exact ⟨rfl, ⟨0, by decide⟩⟩)
    w8T (by decide)⟩

/-- Claim C9: every span produced by any of the four matching
strategies — and hence by the resolution cascade — is a well-formed
half-open character range into the original text:
`start ≤ end ≤ len(original)` (the lower bound `0 ≤ start` holds by the
`Nat` typing of offsets). -/
theorem claim_C9_span_bounds :
    (∀ T S : List Char, ∀ i, pyFind T S = some i →
      i ≤ i + S.length ∧ i + S.length ≤ T.length) ∧
    (∀ T S : List Char, ∀ s e, fuzzy_match T S = some (s, e) →
      s ≤ e ∧ e ≤ T.length) ∧
    (∀ T S : List Char, ∀ si s e, line_trimmed_fallback_match T S si = some (s, e) →
      s ≤ e ∧ e ≤ T.length) ∧
    (∀ T S : List Char, ∀ si s e, block_anchor_fallback_match T S si = some (s, e) →
      s ≤ e ∧ e ≤ T.length) ∧
    (∀ T S : List Char, ∀ s e, resolve_search T S = some (s, e) →
      s ≤ e ∧ e ≤ T.length) :=
  ⟨fun _ _ _ h => pyFind_span_bounds h,
    fun _ _ _ _ h => fuzzy_some_bounds h,
    fun _ _ _ _ _ h => line_trimmed_some_bounds h,
    fun _ _ _ _ _ h => block_anchor_some_bounds h,
    fun _ _ _ _ h => resolve_search_bounds h⟩

theorem claim_C9_span_bounds_witness :
    (0 : Nat) ≤ 5 ∧ 5 ≤ cex8T.length :=
  claim_C9_span_bounds.2.2.2.2 cex8T cex8R 0 5 (by decide)

/-- Claim C10: a block whose search section has zero lines joins to the
empty search string; Python `find` returns 0 for the empty needle, so
the exact matcher resolves the block to the empty span `[0, 0)` and the
replacement text is inserted at the very beginning of the original
(`insT`/`insD` is a concrete run); the fuzzy and line-trimmed matchers
are never consulted — and their own empty-search guards would return no
match anyway. -/
theorem claim_C10_empty_search (T : List Char) :
    pyFind T (joinNL []) = some 0 ∧
    resolve_search T (joinNL []) = some (0, 0) ∧
    fuzzy_match T (joinNL []) = none ∧
    line_trimmed_fallback_match T (joinNL []) 0 = none ∧
    apply_diff insT insD = .ok insR := by
  have hj : joinNL [] = ([] : List Char) := rfl
  rw [hj]
  have hfind : pyFind T [] = some 0 := by
    cases T with
    | nil => rfl
    | cons c t => rfl
  refine ⟨hfind, ?_, ?_, ?_, by decide⟩
  · unfold resolve_search
    rw [hfind]
    rfl
  · simp [fuzzy_match, splitlinesKeep_nil]
  · simp [line_trimmed_fallback_match, splitlines, splitlinesKeep_nil]
